import Mathlib

/-!
Verification of the DocAgent docstring-generation system.

This file gives a shallow embedding, in Lean 4, of the parts of the DocAgent
repository that the verified properties talk about:

* `src/dependency_analyzer/topo_sort.py` — Tarjan cycle detection,
  cycle resolution, dependency-first DFS ordering;
* `src/dependency_analyzer/ast_parser.py` — component collection and
  dependency collection over (a mini model of) the Python AST;
* `src/agent/orchestrator.py` — the per-component workflow loop, verifier
  response parsing, context merging and token budgeting;
* `src/agent/searcher.py` and `src/agent/tool/internal_traverse.py` —
  reader-request parsing and internal code retrieval;
* `generate_docstrings.py` — focal-component truncation, docstring
  writeback, and the sequential main processing loop.

External libraries used by the code (the `tiktoken` tokenizer, Python's
`xml.etree` parser) are modelled abstractly as parameters; Python standard
library string functions (`str.strip`, `textwrap.dedent`, `textwrap.indent`,
regular-expression search for the specific patterns the code uses) are
modelled concretely, following the CPython semantics the code relies on.
-/

namespace DocAgent

/-! ## Basic string utilities (CPython semantics) -/

/-- Whitespace characters stripped by Python's `str.strip()`. -/
def isPyWhitespace (c : Char) : Bool :=
  c = ' ' || c = '\t' || c = '\n' || c = '\r' || c = '\x0b' || c = '\x0c'

/-- Python `s.strip()` on a list of characters. -/
def pyStripList (l : List Char) : List Char :=
  ((l.dropWhile isPyWhitespace).reverse.dropWhile isPyWhitespace).reverse

/-- Python `s.strip()`. -/
def pyStrip (s : String) : String :=
  String.mk (pyStripList s.data)

/-- Python `s.strip('\n')` on a list of characters. -/
def pyStripNlList (l : List Char) : List Char :=
  ((l.dropWhile (· = '\n')).reverse.dropWhile (· = '\n')).reverse

/-- Python `s.strip('\n')`. -/
def pyStripNewlines (s : String) : String :=
  String.mk (pyStripNlList s.data)

/-- Python `s.lower()` (ASCII is all the code compares). -/
def pyLower (s : String) : String :=
  String.mk (s.data.map Char.toLower)

/-- Split a character list at every character satisfying `p`, keeping
empty pieces (the semantics of Python `str.split(sep)` for a one-character
separator, and of Lean's `String.split`).  Implemented directly so that it
reduces inside the kernel. -/
def splitOnPred (p : Char → Bool) : List Char → List (List Char)
  | [] => [[]]
  | x :: rest =>
    let r := splitOnPred p rest
    if p x then [] :: r
    else
      match r with
      | [] => [[x]]
      | h :: t => (x :: h) :: t

/-- Python `s.split(c)` for a single-character separator. -/
def pySplit (s : String) (c : Char) : List String :=
  (splitOnPred (fun x => x = c) s.data).map String.mk

/-- Join a list of strings with a separator (Python `sep.join`). -/
def joinWith (sep : String) : List String → String
  | [] => ""
  | [x] => x
  | x :: rest => x ++ sep ++ joinWith sep rest

/-- Index of the first position at which `pat` occurs in `hay`, if any. -/
def firstOccurrence (hay pat : List Char) : Option Nat :=
  match hay with
  | [] => if pat.isEmpty then some 0 else none
  | _ :: rest =>
    if pat.isPrefixOf hay then some 0
    else (firstOccurrence rest pat).map (· + 1)

/-- The text strictly between the first `<tag>` and the first following
`</tag>`, mirroring `re.search(r'<tag>(.*?)</tag>', s, re.DOTALL)`. -/
def findTagContentList (hay : List Char) (tag : String) : Option (List Char) :=
  let openTag := ('<' :: tag.data) ++ ['>']
  let closeTag := ('<' :: '/' :: tag.data) ++ ['>']
  match firstOccurrence hay openTag with
  | none => none
  | some i =>
    let rest := hay.drop (i + openTag.length)
    match firstOccurrence rest closeTag with
    | none => none
    | some j => some (rest.take j)

/-- String wrapper for `findTagContentList`. -/
def findTagContent (s : String) (tag : String) : Option String :=
  (findTagContentList s.data tag).map String.mk

/-- Replace every (non-overlapping, leftmost-first) `<tag>…</tag>` region by
`<tag>` ++ `inner` ++ `</tag>`, mirroring `re.sub` with the non-greedy
DOTALL pattern the code uses.  `fuel` bounds the scan and is always called
with the length of the string, which suffices. -/
def replaceTagAllList (fuel : Nat) (hay : List Char) (tag : String)
    (inner : List Char) : List Char :=
  match fuel with
  | 0 => hay
  | fuel + 1 =>
    let openTag := ('<' :: tag.data) ++ ['>']
    let closeTag := ('<' :: '/' :: tag.data) ++ ['>']
    match firstOccurrence hay openTag with
    | none => hay
    | some i =>
      let rest := hay.drop (i + openTag.length)
      match firstOccurrence rest closeTag with
      | none => hay
      | some j =>
        let tail := rest.drop (j + closeTag.length)
        hay.take i ++ openTag ++ inner ++ closeTag ++
          replaceTagAllList fuel tail tag inner

/-- String wrapper for `replaceTagAllList`. -/
def replaceTagAll (s : String) (tag inner : String) : String :=
  String.mk (replaceTagAllList s.data.length s.data tag inner.data)

/-- Substring relation on strings. -/
def ContainsSubstr (s t : String) : Prop :=
  ∃ a b : String, s = a ++ t ++ b

/-! ## Abstract token encoding

The code counts and truncates tokens with `tiktoken`'s `cl100k_base`
encoding.  The tokenizer is an external library, so it is modelled as an
abstract pair of functions; the concrete `charEncoding` (one token per
character) instantiates it for evaluation. -/

structure Encoding where
  encode : String → List Nat
  decode : List Nat → String

/-- One token per character: a concrete instance used for evaluation. -/
def charEncoding : Encoding where
  encode s := s.data.map Char.toNat
  decode l := String.mk (l.map Char.ofNat)

/-! ## `generate_docstrings.generate_docstring_for_component` (C9)

Embeds the focal-component preparation in
`generate_docstring_for_component` (src/generate_docstrings.py:141-148 and
190-197): the focal token count is measured first, the code is truncated to
its first 10000 tokens when it is larger, and the *original* count is what
is handed to `Orchestrator.process` as `token_consume_focal`.  The function
returns the pair `(focal_component, token_consume_focal)` passed to
`process`. -/

def generate_docstring_focal_args (enc : Encoding) (component_code : String) :
    String × Nat :=
  let token_consume_focal := (enc.encode component_code).length
  let component_code :=
    if token_consume_focal > 10000 then
      enc.decode ((enc.encode component_code).take 10000)
    else component_code
  (component_code, token_consume_focal)

/-! ## `textwrap.dedent` and `textwrap.indent` (CPython semantics) -/

/-- Lines consisting solely of spaces and tabs are normalised to empty,
following `textwrap.dedent`'s `_whitespace_only_re` substitution. -/
def normWhitespaceLine (l : String) : String :=
  if l ≠ "" ∧ l.data.all (fun c => c = ' ' || c = '\t') then "" else l

/-- Leading run of spaces and tabs of a line. -/
def leadingIndent (l : String) : List Char :=
  l.data.takeWhile (fun c => c = ' ' || c = '\t')

/-- Longest common prefix of two character lists. -/
def commonLead : List Char → List Char → List Char
  | x :: xs, y :: ys => if x = y then x :: commonLead xs ys else []
  | _, _ => []

/-- The common margin `textwrap.dedent` computes over all lines that
contain a non-whitespace character. -/
def dedentMargin (lines : List String) : List Char :=
  let indents := (lines.filter (fun l => ¬ l.data.all
    (fun c => c = ' ' || c = '\t' || c = '\n'))).map leadingIndent
  match indents with
  | [] => []
  | i :: is => is.foldl commonLead i

/-- Python `textwrap.dedent`. -/
def pyDedent (text : String) : String :=
  let lines := (pySplit text '\n').map normWhitespaceLine
  let margin := dedentMargin lines
  let stripped :=
    if margin.isEmpty then lines
    else lines.map (fun l =>
      if margin.isPrefixOf l.data then String.mk (l.data.drop margin.length)
      else l)
  joinWith "\n" stripped

/-- Python `textwrap.indent text pre` with the default predicate: `pre` is
prepended to every line whose strip is non-empty. -/
def pyIndent (text pre : String) : String :=
  joinWith "\n" ((pySplit text '\n').map (fun l =>
    if pyStrip l ≠ "" then pre ++ l else l))

/-! ## `generate_docstrings.set_node_docstring` (C10)

Embeds `set_node_docstring` (src/generate_docstrings.py:285-341).  The
string value installed in the new docstring node is computed by
`set_node_docstring_text`; the body update is `setNodeDocstringBody` over
the mini statement type below. -/

def set_node_docstring_text (col_offset : Nat) (docstring : String) : String :=
  let stripped := pyStripNewlines docstring
  let stripped := if stripped = "" then "No docstring provided." else stripped
  let dedented := pyDedent stripped
  let doc_indent_str := String.mk (List.replicate (col_offset + 4) ' ')
  "\n" ++ pyIndent dedented doc_indent_str ++ "\n" ++ doc_indent_str

/-! ## Dependency graphs (`src/dependency_analyzer/topo_sort.py`)

A graph is an insertion-ordered association list `node ↦ dependency list`,
mirroring the Python `Dict[str, Set[str]]` (dict iteration order is
insertion order; the set of dependencies is carried as a duplicate-free
list). -/

def Graph := List (String × List String)

instance : DecidableEq Graph := by unfold Graph; infer_instance

/-- Dependencies of a node; Python `graph.get(node, set())`. -/
def depsOf (g : Graph) (node : String) : List String :=
  ((g.find? (fun p => p.1 = node)).map Prod.snd).getD []

/-- Keys of the graph in insertion order. -/
def keysOf (g : Graph) : List String := g.map Prod.fst

/-- All nodes that can ever be visited: the keys together with every
dependency.  Used only to size the recursion fuel. -/
def univNodes (g : Graph) : List String :=
  (g.map Prod.fst ++ g.flatMap Prod.snd).dedup

/-- Lookup in an insertion-ordered association list (Python dict read). -/
def alook (l : List (String × Nat)) (k : String) : Option Nat :=
  (l.find? (fun p => p.1 = k)).map Prod.snd

/-- Write to an insertion-ordered association list (Python dict write):
replaces the binding if the key is present, otherwise appends it. -/
def aset (l : List (String × Nat)) (k : String) (v : Nat) :
    List (String × Nat) :=
  match l with
  | [] => [(k, v)]
  | (k₀, v₀) :: rest =>
    if k₀ = k then (k, v) :: rest else (k₀, v₀) :: aset rest k v

/-- Lookup defaulting to `0`; in the embedded runs the key is always
present wherever this is used (Python would raise `KeyError` otherwise). -/
def alookD (l : List (String × Nat)) (k : String) : Nat :=
  (alook l k).getD 0

/-- State of Tarjan's algorithm as implemented in `detect_cycles`
(src/dependency_analyzer/topo_sort.py:27-33).  The stack is kept with its
top at the head (the Python list appends to and pops from the end). -/
structure TarjanSt where
  counter : Nat
  index : List (String × Nat)
  lowlink : List (String × Nat)
  stack : List String
  onstack : List String
  sccs : List (List String)

/-- Pop the stack down to and including `node`; returns the popped nodes in
pop order and the remaining stack.  Mirrors the `while True` pop loop of
`strongconnect`. -/
def popUntil : List String → String → List String × List String
  | [], _ => ([], [])
  | top :: rest, node =>
    if top = node then ([top], rest)
    else
      let pr := popUntil rest node
      (top :: pr.1, pr.2)

/-- The `strongconnect` inner function of `detect_cycles`
(src/dependency_analyzer/topo_sort.py:35-66), with explicit state passing
and recursion fuel (the fuel is sized so that it never runs out). -/
def strongconnect (g : Graph) : Nat → String → TarjanSt → TarjanSt
  | 0, _, st => st
  | fuel + 1, node, st =>
    let st : TarjanSt :=
      { counter := st.counter + 1
        index := aset st.index node st.counter
        lowlink := aset st.lowlink node st.counter
        stack := node :: st.stack
        onstack := node :: st.onstack
        sccs := st.sccs }
    let st := (depsOf g node).foldl (fun st succ =>
      if (alook st.index succ).isNone then
        let st := strongconnect g fuel succ st
        let v := min (alookD st.lowlink node) (alookD st.lowlink succ)
        { st with lowlink := aset st.lowlink node v }
      else if succ ∈ st.onstack then
        let v := min (alookD st.lowlink node) (alookD st.index succ)
        { st with lowlink := aset st.lowlink node v }
      else st) st
    if alookD st.lowlink node = alookD st.index node then
      let pr := popUntil st.stack node
      { st with
        stack := pr.2
        onstack := st.onstack.filter (fun x => !(pr.1.contains x))
        sccs := if pr.1.length > 1 then st.sccs ++ [pr.1] else st.sccs }
    else st

/-- Initial Tarjan state. -/
def tarjanInit : TarjanSt := ⟨0, [], [], [], [], []⟩

/-- `detect_cycles` (src/dependency_analyzer/topo_sort.py:15-73): runs
`strongconnect` from every unindexed key in insertion order and returns
the strongly connected components of size greater than one. -/
def detect_cycles (g : Graph) : List (List String) :=
  let fuel := (univNodes g).length + 1
  ((keysOf g).foldl (fun st node =>
    if (alook st.index node).isNone then strongconnect g fuel node st
    else st) tarjanInit).sccs

/-- Remove the edge `cur → nxt` from the graph. -/
def removeEdge (g : Graph) (cur nxt : String) : Graph :=
  g.map (fun p => if p.1 = cur then (p.1, p.2.erase nxt) else p)

/-- The per-cycle edge-removal loop of `resolve_cycles`
(src/dependency_analyzer/topo_sort.py:107-114): scan consecutive pairs of
the SCC list and remove the first pair that is an edge, then stop. -/
def breakCycle (ng : Graph) : List String → Graph
  | [] => ng
  | [_] => ng
  | cur :: nxt :: rest =>
    if nxt ∈ depsOf ng cur then removeEdge ng cur nxt
    else breakCycle ng (nxt :: rest)

/-- `resolve_cycles` (src/dependency_analyzer/topo_sort.py:75-116). -/
def resolve_cycles (g : Graph) : Graph :=
  let cycles := detect_cycles g
  if cycles.isEmpty then g
  else cycles.foldl breakCycle g

/-- Lexicographic comparison of character lists (Python string `<=`). -/
def listCharLe : List Char → List Char → Bool
  | [], _ => true
  | _ :: _, [] => false
  | a :: as, b :: bs =>
    if a < b then true else if b < a then false else listCharLe as bs

/-- Python string ordering used by `sorted`. -/
def strLeB (a b : String) : Bool := listCharLe a.data b.data

/-- Insertion into a sorted list. -/
def insertSorted (x : String) : List String → List String
  | [] => [x]
  | y :: ys => if strLeB x y then x :: y :: ys else y :: insertSorted x ys

/-- Python `sorted` on a list of strings. -/
def sortStrings (l : List String) : List String :=
  l.foldr insertSorted []

/-- State of the DFS in `dependency_first_dfs`: the visited set and the
result list (appended at the end). -/
structure DfsSt where
  visited : List String
  result : List String

/-- The recursive `dfs` inner function of `dependency_first_dfs`
(src/dependency_analyzer/topo_sort.py:211-221), with explicit state and
recursion fuel (sized so that it never runs out). -/
def dfsVisit (ag : Graph) : Nat → String → DfsSt → DfsSt
  | 0, _, s => s
  | fuel + 1, node, s =>
    if node ∈ s.visited then s
    else
      let s : DfsSt := { s with visited := node :: s.visited }
      let s := (sortStrings (depsOf ag node)).foldl
        (fun acc d => dfsVisit ag fuel d acc) s
      { s with result := s.result ++ [node] }

/-- `dependency_first_dfs` (src/dependency_analyzer/topo_sort.py:168-234). -/
def dependency_first_dfs (g : Graph) : List String :=
  let ag := resolve_cycles g
  let keys := keysOf ag
  let roots0 := keys.filter (fun n => !(ag.any (fun p => p.2.contains n)))
  let roots := if roots0.isEmpty then keys.take 1 else roots0
  let fuel := (univNodes ag).length + 1
  let s := (sortStrings roots).foldl
    (fun acc r => dfsVisit ag fuel r acc) ⟨[], []⟩
  let s :=
    if s.result.length ≠ keys.length then
      (sortStrings keys).foldl (fun acc n =>
        if n ∈ acc.visited then acc else dfsVisit ag fuel n acc) s
    else s
  s.result

/-! ## Components (`src/dependency_analyzer/ast_parser.py`) -/

/-- The metadata of a `CodeComponent` that the verified properties need
(src/dependency_analyzer/ast_parser.py:30-66). -/
structure Comp where
  component_type : String
  depends_on : List String
  file_path : String := ""
  has_docstring : Bool := false
  docstring : String := ""
deriving DecidableEq

/-- `build_graph_from_components`
(src/dependency_analyzer/topo_sort.py:236-265): keep only dependencies
that are themselves components. -/
def build_graph_from_components (components : List (String × Comp)) : Graph :=
  components.map (fun p =>
    (p.1, p.2.depends_on.filter (fun d =>
      (components.find? (fun q => q.1 = d)).isSome)))

/-! ## A mini Python AST

Only the node shapes the embedded code inspects are modelled.  Line and
column attributes (`lineno`, `end_lineno`, `col_offset`) are carried as
explicit fields on definitions, as the code reads them.  `isLoad` models
the `ast.Load` / `ast.Store` expression context. -/

inductive PyExpr where
  | name (id : String) (isLoad : Bool)
  | attr (value : PyExpr) (attrName : String) (isLoad : Bool)
  | call (func : PyExpr) (args : List PyExpr)
  | constInt (n : Nat)
  | constStr (s : String)

inductive PyStmt where
  | functionDef (name : String) (args : List String) (body : List PyStmt)
      (lineno endLineno colOffset : Nat)
  | classDef (name : String) (bases : List PyExpr) (body : List PyStmt)
      (lineno endLineno colOffset : Nat)
  | ret (value : Option PyExpr)
  | assign (targets : List PyExpr) (value : PyExpr)
  | exprStmt (value : PyExpr)
  | importStmt (names : List String)
  | importFrom (moduleName : String) (names : List String)
  | passStmt

structure PyModule where
  body : List PyStmt

/-- A uniform node type for `ast.walk` / `ast.iter_child_nodes`. -/
inductive PNode where
  | mod (body : List PyStmt)
  | stmt (s : PyStmt)
  | expr (e : PyExpr)

/-- Direct children in field order, mirroring `ast.iter_child_nodes` (the
argument list of a definition holds plain strings, whose `arg` nodes no
embedded visitor inspects, so they are omitted). -/
def childrenOf : PNode → List PNode
  | .mod body => body.map .stmt
  | .stmt (.functionDef _ _ body _ _ _) => body.map .stmt
  | .stmt (.classDef _ bases body _ _ _) => bases.map .expr ++ body.map .stmt
  | .stmt (.ret v) => (v.map (fun e => [PNode.expr e])).getD []
  | .stmt (.assign targets value) => targets.map .expr ++ [.expr value]
  | .stmt (.exprStmt e) => [.expr e]
  | .stmt (.importStmt _) => []
  | .stmt (.importFrom _ _) => []
  | .stmt .passStmt => []
  | .expr (.name _ _) => []
  | .expr (.attr v _ _) => [.expr v]
  | .expr (.call f args) => .expr f :: args.map .expr
  | .expr (.constInt _) => []
  | .expr (.constStr _) => []

/-- Breadth-first traversal queue step for `ast.walk`, emitting each node
with its parent.  `fuel` is an upper bound on the number of nodes. -/
def bfsWalk : Nat → List (PNode × Option PNode) → List (PNode × Option PNode)
  | 0, _ => []
  | _ + 1, [] => []
  | fuel + 1, (n, p) :: rest =>
    (n, p) :: bfsWalk fuel (rest ++ (childrenOf n).map (fun c => (c, some n)))

mutual

/-- Number of syntax nodes in an expression (used to size traversal fuel). -/
def exprSize : PyExpr → Nat
  | .name _ _ => 1
  | .attr v _ _ => 1 + exprSize v
  | .call f args => 1 + exprSize f + exprListSize args
  | .constInt _ => 1
  | .constStr _ => 1

def exprListSize : List PyExpr → Nat
  | [] => 0
  | e :: rest => exprSize e + exprListSize rest

end

mutual

/-- Number of syntax nodes in a statement. -/
def stmtSize : PyStmt → Nat
  | .functionDef _ _ body _ _ _ => 1 + stmtListSize body
  | .classDef _ bases body _ _ _ => 1 + exprListSize bases + stmtListSize body
  | .ret v => 1 + ((v.map exprSize).getD 0)
  | .assign targets value => 1 + exprListSize targets + exprSize value
  | .exprStmt e => 1 + exprSize e
  | .importStmt _ => 1
  | .importFrom _ _ => 1
  | .passStmt => 1

def stmtListSize : List PyStmt → Nat
  | [] => 0
  | s :: rest => stmtSize s + stmtListSize rest

end

/-- Number of syntax nodes reachable from a uniform node. -/
def pnodeSize : PNode → Nat
  | .mod body => 1 + stmtListSize body
  | .stmt s => 1 + stmtSize s
  | .expr e => 1 + exprSize e

/-- `ast.walk` from a node, with parent back-references
(`add_parent_to_nodes`, src/dependency_analyzer/ast_parser.py:305-314). -/
def astWalk (root : PNode) : List (PNode × Option PNode) :=
  bfsWalk (pnodeSize root) [(root, none)]

/-! ## `ast_parser.ImportCollector` -/

/-- Accumulated import information of one file:
`imports` from `import X`, `from_imports` as `module ↦ imported names`. -/
structure Imports where
  imports : List String
  from_imports : List (String × List String)

/-- Insert a name into a set kept as a duplicate-free list (Python `set.add`). -/
def setInsert (l : List String) (x : String) : List String :=
  if x ∈ l then l else l ++ [x]

/-- Record `from module import names` (src/dependency_analyzer/ast_parser.py:113-124):
the module key is created on first sight and star imports contribute no names. -/
def addFromImport (fi : List (String × List String)) (m : String)
    (names : List String) : List (String × List String) :=
  let fi := if (fi.find? (fun p => p.1 = m)).isSome then fi else fi ++ [(m, [])]
  names.foldl (fun fi n =>
    if n = "*" then fi
    else fi.map (fun p => if p.1 = m then (p.1, p.2 ++ [n]) else p)) fi

/-- `ImportCollector` run over a whole module: visits every node
(the visitor recurses through all statements). -/
def collectImports (m : PyModule) : Imports :=
  (astWalk (.mod m.body)).foldl (fun acc np =>
    match np.1 with
    | .stmt (.importStmt names) =>
      { acc with imports := names.foldl setInsert acc.imports }
    | .stmt (.importFrom moduleName names) =>
      { acc with from_imports := addFromImport acc.from_imports moduleName names }
    | _ => acc) ⟨[], []⟩

/-! ## `ast_parser.DependencyCollector` -/

/-- A representative model of Python's `dir(builtins)` (the exact contents
are interpreter-supplied; every name the verified scenarios mention is
classified as in CPython). -/
def BUILTIN_TYPES : List String :=
  ["abs", "all", "any", "bool", "bytes", "callable", "classmethod", "dict",
   "dir", "enumerate", "eval", "Exception", "filter", "float", "format",
   "frozenset", "getattr", "hasattr", "hash", "id", "input", "int",
   "isinstance", "issubclass", "iter", "len", "list", "map", "max", "min",
   "next", "object", "open", "ord", "print", "property", "range", "repr",
   "reversed", "round", "set", "setattr", "sorted", "staticmethod", "str",
   "sum", "super", "tuple", "type", "TypeError", "ValueError", "vars", "zip"]

/-- The fixed standard-library module list of the code
(src/dependency_analyzer/ast_parser.py:22-27). -/
def STANDARD_MODULES : List String :=
  ["abc", "argparse", "array", "asyncio", "base64", "collections", "copy",
   "csv", "datetime", "enum", "functools", "glob", "io", "itertools",
   "json", "logging", "math", "os", "pathlib", "random", "re", "shutil",
   "string", "sys", "time", "typing", "uuid", "warnings", "xml"]

/-- `EXCLUDED_NAMES` (src/dependency_analyzer/ast_parser.py:28). -/
def EXCLUDED_NAMES : List String := ["self", "cls"]

/-- The per-component constants of a `DependencyCollector`
(src/dependency_analyzer/ast_parser.py:175-183). -/
structure DCCtx where
  imports : List String
  from_imports : List (String × List String)
  current_module : String
  repo_modules : List String

/-- The mutable visitor state: collected dependencies and the set of
locally defined names. -/
structure DCSt where
  dependencies : List String
  local_variables : List String

/-- Insert a dependency (Python `set.add`). -/
def dcAddDep (st : DCSt) (d : String) : DCSt :=
  { st with dependencies := setInsert st.dependencies d }

/-- `DependencyCollector._add_dependency`
(src/dependency_analyzer/ast_parser.py:276-302). -/
def addDependency (ctx : DCCtx) (st : DCSt) (name : String) : DCSt :=
  if name ∈ BUILTIN_TYPES then st
  else if name ∈ EXCLUDED_NAMES then st
  else if name ∈ st.local_variables then st
  else
    match ctx.from_imports.find? (fun p =>
        p.1 ∉ STANDARD_MODULES ∧ name ∈ p.2 ∧ p.1 ∈ ctx.repo_modules) with
    | some p => dcAddDep st (p.1 ++ "." ++ name)
    | none => dcAddDep st (ctx.current_module ++ "." ++ name)

/-- Decompose an attribute chain into its base name (if the chain bottoms
out in a bare name) and the attribute parts, mirroring the `while` loop of
`_process_attribute`. -/
def attrChain : PyExpr → Option String × List String
  | .attr v a _ =>
    let bp := attrChain v
    (bp.1, bp.2 ++ [a])
  | .name id _ => (some id, [])
  | _ => (none, [])

/-- `DependencyCollector._process_attribute`
(src/dependency_analyzer/ast_parser.py:232-274). -/
def processAttribute (ctx : DCCtx) (st : DCSt) (node : PyExpr) : DCSt :=
  match attrChain node with
  | (none, _) => st
  | (some base, parts) =>
    if base ∈ st.local_variables then st
    else if base ∈ EXCLUDED_NAMES then st
    else if base ∈ ctx.imports then
      if base ∈ STANDARD_MODULES then st
      else if base ∈ ctx.repo_modules then
        match parts with
        | p1 :: _ => dcAddDep st (base ++ "." ++ p1)
        | [] => st
      else st
    else if (ctx.from_imports.find? (fun p => p.1 = base)).isSome then
      if base ∈ STANDARD_MODULES then st
      else
        match parts with
        | p1 :: _ =>
          if p1 ∈ (((ctx.from_imports.find? (fun p => p.1 = base)).map
              Prod.snd).getD []) then
            dcAddDep st (base ++ "." ++ p1)
          else st
        | [] => st
    else st

mutual

/-- One visit step of `DependencyCollector` on an expression, followed by
the `generic_visit` descent into its children (the visitor dispatches
`visit_Call`, `visit_Name` and `visit_Attribute`;
src/dependency_analyzer/ast_parser.py:210-230). -/
def dcVisitExpr (ctx : DCCtx) (e : PyExpr) (st : DCSt) : DCSt :=
  match e with
  | .call f args =>
    let st := match f with
      | .name id _ => addDependency ctx st id
      | .attr v a il => processAttribute ctx st (.attr v a il)
      | _ => st
    dcVisitExprList ctx args (dcVisitExpr ctx f st)
  | .name id isLoad => if isLoad then addDependency ctx st id else st
  | .attr v a il =>
    let st := processAttribute ctx st (.attr v a il)
    dcVisitExpr ctx v st
  | .constInt _ => st
  | .constStr _ => st

/-- Visit a list of expressions in order. -/
def dcVisitExprList (ctx : DCCtx) (es : List PyExpr) (st : DCSt) : DCSt :=
  match es with
  | [] => st
  | e :: rest => dcVisitExprList ctx rest (dcVisitExpr ctx e st)

end

mutual

/-- One visit step of `DependencyCollector` on a statement
(`visit_ClassDef`, `visit_Assign`; everything else is `generic_visit`;
src/dependency_analyzer/ast_parser.py:185-208). -/
def dcVisitStmt (ctx : DCCtx) (s : PyStmt) (st : DCSt) : DCSt :=
  match s with
  | .classDef _ bases body _ _ _ =>
    let st := bases.foldl (fun st b =>
      match b with
      | .name id _ => addDependency ctx st id
      | .attr v a il => processAttribute ctx st (.attr v a il)
      | _ => st) st
    let st := dcVisitExprList ctx bases st
    dcVisitStmtList ctx body st
  | .assign targets value =>
    let st := targets.foldl (fun st t =>
      match t with
      | .name id _ =>
        { st with local_variables := setInsert st.local_variables id }
      | _ => st) st
    let st := dcVisitExprList ctx targets st
    dcVisitExpr ctx value st
  | .ret v =>
    match v with
    | some e => dcVisitExpr ctx e st
    | none => st
  | .exprStmt e => dcVisitExpr ctx e st
  | .functionDef _ _ body _ _ _ => dcVisitStmtList ctx body st
  | .importStmt _ => st
  | .importFrom _ _ => st
  | .passStmt => st

/-- Visit a list of statements in order. -/
def dcVisitStmtList (ctx : DCCtx) (ss : List PyStmt) (st : DCSt) : DCSt :=
  match ss with
  | [] => st
  | s :: rest => dcVisitStmtList ctx rest (dcVisitStmt ctx s st)

end

/-! ## `ast_parser.DependencyParser` component collection and resolution -/

/-- A collected component before dependency resolution: its module, type
and syntax node. -/
structure PComp where
  module_path : String
  component_type : String
  node : PyStmt

/-- Whether a statement body starts with a string-literal expression (the
`has_docstring` test of `_collect_components`). -/
def bodyHasDocstring : List PyStmt → Bool
  | .exprStmt (.constStr _) :: _ => true
  | _ => false

/-- `DependencyParser._collect_components`
(src/dependency_analyzer/ast_parser.py:386-480): walk the tree; a class
definition anywhere contributes a class component and one component per
direct method; a function definition contributes a component only when its
parent is the module. -/
def collect_components (module_path : String) (m : PyModule) :
    List (String × PComp) :=
  (astWalk (.mod m.body)).foldl (fun acc np =>
    match np with
    | (.stmt (.classDef cname bases body l e c), _) =>
      let class_id := module_path ++ "." ++ cname
      let withClass :=
        acc ++ [(class_id, ⟨module_path, "class", .classDef cname bases body l e c⟩)]
      body.foldl (fun acc item =>
        match item with
        | .functionDef mname args mbody l2 e2 c2 =>
          acc ++ [(class_id ++ "." ++ mname,
            ⟨module_path, "method", .functionDef mname args mbody l2 e2 c2⟩)]
        | _ => acc) withClass
    | (.stmt (.functionDef fname args body l e c), some (.mod _)) =>
      acc ++ [(module_path ++ "." ++ fname,
        ⟨module_path, "function", .functionDef fname args body l e c⟩)]
    | _ => acc) []

/-- Find a top-level function by name (`ast.iter_child_nodes` search of
`_resolve_dependencies`). -/
def findTopFunction (m : PyModule) (fname : String) : Option PyStmt :=
  m.body.find? (fun s =>
    match s with
    | .functionDef n _ _ _ _ _ => n = fname
    | _ => false)

/-- Find a top-level class by name. -/
def findTopClass (m : PyModule) (cname : String) : Option PyStmt :=
  m.body.find? (fun s =>
    match s with
    | .classDef n _ _ _ _ _ => n = cname
    | _ => false)

/-- Find a direct method inside a class body. -/
def findDirectMethod (body : List PyStmt) (mname : String) : Option PyStmt :=
  body.find? (fun s =>
    match s with
    | .functionDef n _ _ _ _ _ => n = mname
    | _ => false)

/-- Locate the syntax node `_resolve_dependencies` re-finds for a
component (src/dependency_analyzer/ast_parser.py:503-535): top-level
functions and classes, and direct methods of top-level classes. -/
def findComponentNode (m : PyModule) (comp_id : String)
    (component_type : String) : Option PyStmt :=
  let parts := pySplit comp_id '.'
  if component_type = "function" then
    findTopFunction m (parts.getLastD "")
  else if component_type = "class" then
    findTopClass m (parts.getLastD "")
  else if component_type = "method" then
    let mname := parts.getLastD ""
    let cname := (parts.dropLast).getLastD ""
    match findTopClass m cname with
    | some (.classDef _ _ body _ _ _) => findDirectMethod body mname
    | _ => none
  else none

/-- Parameter names of a definition node (added to the collector's local
variables before the visit; src/dependency_analyzer/ast_parser.py:547-550). -/
def nodeParams : PyStmt → List String
  | .functionDef _ args _ _ _ _ => args
  | _ => []

/-- `DependencyParser._resolve_dependencies`
(src/dependency_analyzer/ast_parser.py:482-564) for one component:
collect this file's imports, run the dependency collector over the
component's node, and keep only dependencies that are components or whose
first segment is a repository module. -/
def resolveComponent (repo : List (String × PyModule)) (modules : List String)
    (allIds : List String) (comp_id : String) (pc : PComp) : Comp :=
  match repo.find? (fun p => p.1 = pc.module_path) with
  | none => { component_type := pc.component_type, depends_on := [] }
  | some (_, tree) =>
    let imp := collectImports tree
    match findComponentNode tree comp_id pc.component_type with
    | none => { component_type := pc.component_type, depends_on := [] }
    | some node =>
      let ctx : DCCtx :=
        ⟨imp.imports, imp.from_imports, pc.module_path, modules⟩
      let st : DCSt := ⟨[], nodeParams node⟩
      let st := dcVisitStmt ctx node st
      let deps := st.dependencies.filter (fun d =>
        d ∈ allIds ∨ ((pySplit d '.').headD "") ∈ modules)
      { component_type := pc.component_type, depends_on := deps }

/-- `DependencyParser._add_class_method_dependencies`
(src/dependency_analyzer/ast_parser.py:566-593): group method components
by their class id (creating the group even for `__init__`, which is then
not listed), and add every listed method id to its class component's
dependency set. -/
def classMethodStep (acc : List (String × List String)) (p : String × Comp) :
    List (String × List String) :=
  if p.2.component_type = "method" then
    let parts := pySplit p.1 '.'
    if parts.length ≥ 2 then
      let method_name := parts.getLastD ""
      let class_id := joinWith "." parts.dropLast
      let acc :=
        if (acc.find? (fun q => q.1 = class_id)).isSome then acc
        else acc ++ [(class_id, [])]
      if method_name ≠ "__init__" then
        acc.map (fun q => if q.1 = class_id then (q.1, q.2 ++ [p.1]) else q)
      else acc
    else acc
  else acc

def classMethodGroups (components : List (String × Comp)) :
    List (String × List String) :=
  components.foldl classMethodStep []

def add_class_method_dependencies (components : List (String × Comp)) :
    List (String × Comp) :=
  let groups := classMethodGroups components
  components.map (fun p =>
    match groups.find? (fun q => q.1 = p.1) with
    | some g =>
      (p.1, { p.2 with depends_on := g.2.foldl setInsert p.2.depends_on })
    | none => p)

/-- `DependencyParser.parse_repository`
(src/dependency_analyzer/ast_parser.py:328-357) over an already-parsed
repository (the `repo` list plays the role of the directory of files,
keyed by module path). -/
def parse_repository (repo : List (String × PyModule)) : List (String × Comp) :=
  let modules := repo.map Prod.fst
  let pcomps := repo.flatMap (fun p => collect_components p.1 p.2)
  let allIds := pcomps.map Prod.fst
  let resolved := pcomps.map (fun p =>
    (p.1, resolveComponent repo modules allIds p.1 p.2))
  add_class_method_dependencies resolved

/-! ## Orchestrator response parsing (`src/agent/orchestrator.py`) -/

/-- Parsed verifier verdict (`_parse_verifier_response` result dict). -/
structure VerifierResult where
  needs_revision : Bool
  needs_context : Bool
  suggestion : String
  context_suggestion : String
deriving DecidableEq, Repr

/-- `Orchestrator._parse_verifier_response`
(src/agent/orchestrator.py:82-126): absent or non-`true` blocks leave the
safe defaults in place. -/
def parse_verifier_response (response : String) : VerifierResult :=
  let base : VerifierResult := ⟨false, false, "", ""⟩
  match findTagContent response "NEED_REVISION" with
  | none => base
  | some nr =>
    if pyLower (pyStrip nr) = "true" then
      let r1 : VerifierResult := { base with needs_revision := true }
      match findTagContent response "MORE_CONTEXT" with
      | none => r1
      | some mc =>
        if pyLower (pyStrip mc) = "true" then
          let r2 := { r1 with needs_context := true }
          match findTagContent response "SUGGESTION_CONTEXT" with
          | none => r2
          | some sc => { r2 with context_suggestion := pyStrip sc }
        else
          match findTagContent response "SUGGESTION" with
          | none => r1
          | some sg => { r1 with suggestion := pyStrip sg }
    else base

/-- The `<INFO_NEED>` check of `Orchestrator.process`
(src/agent/orchestrator.py:169-170). -/
def parseInfoNeed (response : String) : Bool :=
  match findTagContent response "INFO_NEED" with
  | some c => pyLower (pyStrip c) = "true"
  | none => false

/-! ## Context merging and token budgeting (`_update_context`,
`_constrain_context_length`) -/

/-- The empty context skeleton initialised by `_update_context`
(src/agent/orchestrator.py:294-307). -/
def contextSkeleton : String :=
  "<CONTEXT>\n<INTERNAL_INFO>\n<CLASS>\n</CLASS>\n<FUNCTION>\n</FUNCTION>\n" ++
  "<METHOD>\n</METHOD>\n<CALL_BY>\n</CALL_BY>\n</INTERNAL_INFO>\n" ++
  "<EXTERNAL_RETRIEVAL_INFO>\n</EXTERNAL_RETRIEVAL_INFO>\n</CONTEXT>"

/-- The search-results dictionary produced by `Searcher.process`
(src/agent/searcher.py:66-101), with dict entries in insertion order. -/
structure SearchResults where
  classes : List (String × String)
  functions : List (String × String)
  methods : List (String × String)
  called_by : List String
  external : List (String × String)

/-- The `update_xml_section` helper of `_update_context`
(src/agent/orchestrator.py:317-329). -/
def update_xml_section (ctx : String) (tag : String)
    (content_list : List String) : String :=
  if content_list.isEmpty then ctx
  else
    match findTagContent ctx tag with
    | none => ctx
    | some existing =>
      let existing_text := pyStrip existing
      let joined := joinWith "\n" content_list
      let new_content :=
        if existing_text ≠ "" then existing_text ++ "\n" ++ joined else joined
      replaceTagAll ctx tag ("\n" ++ new_content ++ "\n")

/-- Wrap a named snippet as `<name>content</name>`. -/
def wrapPair (p : String × String) : String :=
  "<" ++ p.1 ++ ">" ++ p.2 ++ "</" ++ p.1 ++ ">"

/-- The merging part of `_update_context`
(src/agent/orchestrator.py:292-357), before budget enforcement. -/
def update_context_merge (ctx : String) (sr : SearchResults) : String :=
  let ctx := if ctx = "" then contextSkeleton else ctx
  let ctx := update_xml_section ctx "CLASS" (sr.classes.map wrapPair)
  let ctx := update_xml_section ctx "FUNCTION" (sr.functions.map wrapPair)
  let ctx := update_xml_section ctx "METHOD" (sr.methods.map wrapPair)
  let ctx := update_xml_section ctx "CALL_BY" sr.called_by
  let extContent := sr.external.flatMap (fun p =>
    ["<QUERY>" ++ p.1 ++ "</QUERY>", "<r>" ++ p.2 ++ "</r>"])
  update_xml_section ctx "EXTERNAL_RETRIEVAL_INFO" extContent

/-- The section names `_constrain_context_length` searches for
(src/agent/orchestrator.py:385-391). -/
def constrainCandidates : List String :=
  ["CODE_CONTEXT", "FOCAL_COMPONENT", "RELATED_COMPONENTS",
   "FOCAL_DEPENDENCIES", "EXTERNAL_RETRIEVAL_INFO"]

/-- Python `max(..., key=token count)`: the first candidate with the
strictly largest token count. -/
def pickLargest (enc : Encoding) (cands : List (String × String)) :
    Option (String × String) :=
  match cands with
  | [] => none
  | c :: rest =>
    some (rest.foldl (fun best x =>
      if (enc.encode x.2).length > (enc.encode best.2).length then x
      else best) c)

/-- Tail truncation by `k` tokens, emptied when `k` covers the whole
content (src/agent/orchestrator.py:418-425). -/
def truncateSection (enc : Encoding) (content : String) (k : Nat) : String :=
  let encoded := enc.encode content
  if k ≥ encoded.length then ""
  else enc.decode (encoded.take (encoded.length - k))

/-- `Orchestrator._constrain_context_length`
(src/agent/orchestrator.py:367-432). -/
def constrain_context_length (enc : Encoding)
    (max_input_tokens token_consume_focal : Nat) (ctx : String) : String :=
  let current_tokens := (enc.encode ctx).length
  if current_tokens + token_consume_focal ≤ max_input_tokens then ctx
  else
    let cands := constrainCandidates.filterMap (fun name =>
      (findTagContent ctx name).map (fun c => (name, c)))
    match pickLargest enc cands with
    | none => ctx
    | some nc =>
      let tokens_to_remove :=
        current_tokens + token_consume_focal - max_input_tokens
      if tokens_to_remove = 0 then ctx
      else
        let new_content := truncateSection enc nc.2 tokens_to_remove
        replaceTagAll ctx nc.1 ("\n" ++ new_content ++ "\n")

/-- `Orchestrator._update_context` (src/agent/orchestrator.py:272-365):
merge, then enforce the token budget. -/
def update_context (enc : Encoding) (max_input_tokens token_consume_focal : Nat)
    (ctx : String) (sr : SearchResults) : String :=
  constrain_context_length enc max_input_tokens token_consume_focal
    (update_context_merge ctx sr)

/-! ## The `Orchestrator.process` workflow loop (C6)

The four LLM-backed agents are external: their responses are supplied as
oracle streams.  The loop state carries the two retry counters, the
context, and the three agent memories the loop manipulates. -/

structure OrchSt where
  r : Nat
  v : Nat
  context : String
  readerMem : List (String × String)
  writerMem : List (String × String)
  verifierMem : List (String × String)

/-- Pending agent responses (one list per agent, consumed in order). -/
structure Oracle where
  readerResponses : List String
  searchResults : List SearchResults
  writerResponses : List String
  verifierResponses : List String

/-- Outcome of the inner writer–verifier loop. -/
inductive InnerRes where
  | commit (docstring : String)
  | toOuter
  | out
deriving DecidableEq, Repr

/-- The inner writer–verifier loop of `Orchestrator.process`
(src/agent/orchestrator.py:205-271).  Returns the outcome, the final
state, the remaining oracle, and the `(r, v)` counter pair at the entry of
every iteration.  `.out` means the oracle or the fuel ran dry (the Python
loop would instead block on an LLM call). -/
def process_inner (rMax vMax : Nat) :
    Nat → OrchSt → Oracle → InnerRes × OrchSt × Oracle × List (Nat × Nat)
  | 0, st, o => (.out, st, o, [])
  | fuel + 1, st, o =>
    let entry := (st.r, st.v)
    match o.writerResponses, o.verifierResponses with
    | docstring :: ws, vresp :: vs =>
      let o := { o with writerResponses := ws, verifierResponses := vs }
      let st := { st with writerMem := st.writerMem ++ [("assistant", docstring)] }
      let vr := parse_verifier_response vresp
      if ¬ vr.needs_revision ∨ st.v ≥ vMax then
        (.commit docstring, st, o, [entry])
      else
        let st := { st with v := st.v + 1, verifierMem := [] }
        if vr.needs_context ∧ st.r < rMax then
          let st := { st with
            readerMem := st.readerMem ++
              [("user", "Additional context needed: " ++ vr.context_suggestion)]
            writerMem := [] }
          (.toOuter, st, o, [entry])
        else
          let st := { st with
            writerMem := st.writerMem ++
              [("user", "Please improve the docstring based on this suggestion: "
                ++ vr.suggestion)] }
          let res := process_inner rMax vMax fuel st o
          (res.1, res.2.1, res.2.2.1, entry :: res.2.2.2)
    | _, _ => (.out, st, o, [])

/-- The outer reader–searcher loop of `Orchestrator.process`
(src/agent/orchestrator.py:158-271), in normal (non-test) mode. -/
def process_outer (rMax vMax : Nat) (enc : Encoding)
    (max_input_tokens : Nat) (readerSystemPrompt : String)
    (token_consume_focal : Nat) :
    Nat → OrchSt → Oracle → Option String × OrchSt × Oracle × List (Nat × Nat)
  | 0, st, o => (none, st, o, [])
  | fuel + 1, st, o =>
    let entry := (st.r, st.v)
    match o.readerResponses with
    | [] => (none, st, o, [])
    | rresp :: rs =>
      let o := { o with readerResponses := rs }
      let st := { st with readerMem := st.readerMem ++ [("assistant", rresp)] }
      let needs_info := parseInfoNeed rresp
      if needs_info ∧ st.r < rMax then
        match o.searchResults with
        | [] => (none, st, o, [entry])
        | sr :: ss =>
          let o := { o with searchResults := ss }
          let st := { st with r := st.r + 1 }
          let newCtx := update_context enc max_input_tokens token_consume_focal
            st.context sr
          let st := { st with
            context := newCtx
            readerMem := [("system", readerSystemPrompt),
              ("user", "Current context:\n" ++ newCtx)] }
          let res := process_outer rMax vMax enc max_input_tokens
            readerSystemPrompt token_consume_focal fuel st o
          (res.1, res.2.1, res.2.2.1, entry :: res.2.2.2)
      else
        let ires := process_inner rMax vMax fuel st o
        match ires.1 with
        | .commit d => (some d, ires.2.1, ires.2.2.1, entry :: ires.2.2.2)
        | .out => (none, ires.2.1, ires.2.2.1, entry :: ires.2.2.2)
        | .toOuter =>
          let res := process_outer rMax vMax enc max_input_tokens
            readerSystemPrompt token_consume_focal fuel ires.2.1 ires.2.2.1
          (res.1, res.2.1, res.2.2.1, entry :: (ires.2.2.2 ++ res.2.2.2))

/-- `Orchestrator.process` (src/agent/orchestrator.py:128-271): counters
start at `0` and the context starts empty. -/
def process (rMax vMax : Nat) (enc : Encoding) (max_input_tokens : Nat)
    (readerSystemPrompt : String) (token_consume_focal : Nat) (fuel : Nat)
    (o : Oracle) : Option String × OrchSt × Oracle × List (Nat × Nat) :=
  process_outer rMax vMax enc max_input_tokens readerSystemPrompt
    token_consume_focal fuel ⟨0, 0, "", [], [], []⟩ o

/-! ## Reader request parsing (`Searcher._parse_reader_response`, C7)

The `xml.etree` parser is external; it is modelled as an abstract function
producing the five text fields the code reads, or `none` whenever
`ET.fromstring` raises `ParseError` or any of the `find(...)` chains
raises `AttributeError` (a missing tag, or a `CALL_BY` tag with no
text). -/

structure EtFields where
  classText : Option String
  functionText : Option String
  methodText : Option String
  callByText : String
  queryText : Option String

/-- Parsed reader request (`ParsedInfoRequest`,
src/agent/searcher.py:13-32). -/
structure ParsedInfoRequest where
  call_class : List String
  call_function : List String
  call_method : List String
  call_by : Bool
  external_requests : List String
deriving DecidableEq, Repr

/-- The default (empty) request. -/
def emptyInfoRequest : ParsedInfoRequest := ⟨[], [], [], false, []⟩

/-- `Searcher._parse_comma_list` (src/agent/searcher.py:151-162). -/
def parse_comma_list : Option String → List String
  | none => []
  | some t =>
    if t = "" then []
    else (pySplit t ',').filterMap (fun item =>
      let s := pyStrip item
      if s = "" then none else some s)

/-- `Searcher._parse_reader_response` (src/agent/searcher.py:103-149),
with the XML parser abstracted as `etParse`. -/
def parse_reader_response (etParse : String → Option EtFields)
    (reader_response : String) : ParsedInfoRequest :=
  match findTagContent reader_response "REQUEST" with
  | none => emptyInfoRequest
  | some inner =>
    match etParse ("<REQUEST>" ++ inner ++ "</REQUEST>") with
    | none => emptyInfoRequest
    | some f =>
      { call_class := parse_comma_list f.classText
        call_function := parse_comma_list f.functionText
        call_method := parse_comma_list f.methodText
        call_by := pyLower f.callByText = "true"
        external_requests := parse_comma_list f.queryText }

/-! ## Internal retrieval (`src/agent/tool/internal_traverse.py`, C8)

The repository on disk is modelled as a list of files carrying their path,
raw text and parse tree (`open` + `ast.parse` are external I/O). -/

structure RepoFile where
  path : String
  content : String
  tree : PyModule

/-- First character uppercase (`s[0].isupper()`; the embedded inputs never
present empty segments, where Python would raise `IndexError`). -/
def firstCharUpper (s : String) : Bool :=
  match s.data with
  | c :: _ => c.isUpper
  | [] => false

/-- First character lowercase (`s[0].islower()`). -/
def firstCharLower (s : String) : Bool :=
  match s.data with
  | c :: _ => c.isLower
  | [] => false

/-- Substring test (Python `needle in haystack`). -/
def substrB (hay needle : String) : Bool :=
  (firstOccurrence hay.data needle.data).isSome

/-- Python `s.endswith(t)`. -/
def endsWithB (s t : String) : Bool :=
  t.data.isSuffixOf s.data

/-- The `type(node).__name__` used in error messages. -/
def nodeTypeName : PyStmt → String
  | .functionDef _ _ _ _ _ _ => "FunctionDef"
  | .classDef _ _ _ _ _ _ => "ClassDef"
  | _ => "stmt"

/-- Line span of a node (`lineno`, `end_lineno`); only definitions carry
meaningful spans, which is all the embedded retrieval paths read. -/
def nodeLines : PyStmt → Nat × Nat
  | .functionDef _ _ _ l e _ => (l, e)
  | .classDef _ _ _ l e _ => (l, e)
  | _ => (1, 1)

/-- `ASTNodeAnalyzer._get_node_source`
(src/agent/tool/internal_traverse.py:535-567): slice the file's lines from
`lineno` to `end_lineno`; a missing file produces the error string of the
`except` branch. -/
def getNodeSource (repo : List RepoFile) (path : String) (node : PyStmt) :
    String :=
  match repo.find? (fun f => f.path = path) with
  | none => "Error retrieving source for " ++ nodeTypeName node ++ ": no such file"
  | some f =>
    let se := nodeLines node
    let lines := pySplit f.content '\n'
    let endLine := min se.2 lines.length
    joinWith "\n" ((lines.drop (se.1 - 1)).take (endLine - (se.1 - 1)))

/-- `ASTNodeAnalyzer._get_call_name`
(src/agent/tool/internal_traverse.py:506-520), applied to a call's
function expression. -/
def getCallName : PyExpr → Option String
  | .name id _ => some id
  | .attr _ a _ => some a
  | _ => none

/-- `ASTNodeAnalyzer._format_call_node`
(src/agent/tool/internal_traverse.py:522-533). -/
def formatCallNode (f : PyExpr) : String :=
  ((getCallName f).getD "None") ++ "(...)"

/-- `ASTNodeAnalyzer._find_class_init_in_node`
(src/agent/tool/internal_traverse.py:377-391): the first call to the class
found by `ast.walk`, rendered as `ClassName(...)`. -/
def findClassInitInNode (node : PyStmt) (class_name : String) : Option String :=
  (astWalk (.stmt node)).findSome? (fun np =>
    match np.1 with
    | .expr (.call f _) =>
      if getCallName f = some class_name then some (formatCallNode f) else none
    | _ => none)

/-- `os.path.join` of the folder parts and `parts[-2] + '.py'`
(src/agent/tool/internal_traverse.py:75-78 and 92). -/
def targetFilePath (parts : List String) : String :=
  let fileName := (parts.dropLast).getLastD "" ++ ".py"
  if parts.length > 2 then
    joinWith "/" ((parts.dropLast).dropLast) ++ "/" ++ fileName
  else fileName

/-- The file path for a method lookup, built from `parts[-3] + '.py'`
(src/agent/tool/internal_traverse.py:180-183). -/
def targetFilePathMethod (parts : List String) : String :=
  let fileName := ((parts.dropLast).dropLast).getLastD "" ++ ".py"
  if parts.length > 3 then
    joinWith "/" (((parts.dropLast).dropLast).dropLast) ++ "/" ++ fileName
  else fileName

/-- `ASTNodeAnalyzer._get_class_component`
(src/agent/tool/internal_traverse.py:63-112).  Note the `self` branch
passes an empty relative path because plain `ast.parse` trees carry no
`file_path` attribute. -/
def get_class_component (repo : List RepoFile) (ast_node : PyStmt)
    (dependency_path : String) : Option String :=
  let parts := pySplit dependency_path '.'
  let class_name := parts.getLastD ""
  if class_name = "self" then
    match ast_node with
    | .classDef n b bd l e c =>
      some (getNodeSource repo "" (.classDef n b bd l e c))
    | _ => none
  else
    match findClassInitInNode ast_node class_name with
    | some s => some s
    | none =>
      let target := targetFilePath parts
      match repo.find? (fun f => f.path = target) with
      | none => none
      | some f =>
        (astWalk (.mod f.tree.body)).findSome? (fun np =>
          match np.1 with
          | .stmt (.classDef n b bd l e c) =>
            if n = class_name then
              some (getNodeSource repo target (.classDef n b bd l e c))
            else none
          | _ => none)

/-- `ASTNodeAnalyzer._get_function_component`
(src/agent/tool/internal_traverse.py:114-162). -/
def get_function_component (repo : List RepoFile) (ast_node : PyStmt)
    (ast_tree : PyModule) (dependency_path : String) : Option String :=
  let parts := pySplit dependency_path '.'
  let function_name := parts.getLastD ""
  if function_name = "self" then
    match ast_node with
    | .functionDef n a b l e c =>
      some (getNodeSource repo "" (.functionDef n a b l e c))
    | _ => none
  else
    let target := targetFilePath parts
    match repo.find? (fun f => f.path = target) with
    | none =>
      (astWalk (.mod ast_tree.body)).findSome? (fun np =>
        match np.1 with
        | .stmt (.functionDef n a b l e c) =>
          if n = function_name then
            some (getNodeSource repo "" (.functionDef n a b l e c))
          else none
        | _ => none)
    | some f =>
      (astWalk (.mod f.tree.body)).findSome? (fun np =>
        match np.1 with
        | .stmt (.functionDef n a b l e c) =>
          if n = function_name then
            some (getNodeSource repo target (.functionDef n a b l e c))
          else none
        | _ => none)

/-- `ASTNodeAnalyzer._get_method_component`
(src/agent/tool/internal_traverse.py:164-224). -/
def get_method_component (repo : List RepoFile) (ast_node : PyStmt)
    (ast_tree : PyModule) (dependency_path : String) : Option String :=
  let parts := pySplit dependency_path '.'
  if parts.length < 3 then none
  else
    let method_name := parts.getLastD ""
    let class_name := (parts.dropLast).getLastD ""
    if class_name = "self" then
      match ast_node with
      | .classDef _ _ body _ _ _ =>
        match findDirectMethod body method_name with
        | some item => some (getNodeSource repo "" item)
        | none => none
      | _ => none
    else
      let target := targetFilePathMethod parts
      match repo.find? (fun f => f.path = target) with
      | none =>
        (astWalk (.mod ast_tree.body)).findSome? (fun np =>
          match np.1 with
          | .stmt (.classDef n _ body _ _ _) =>
            if n = class_name then
              (findDirectMethod body method_name).map (getNodeSource repo "")
            else none
          | _ => none)
      | some f =>
        (astWalk (.mod f.tree.body)).findSome? (fun np =>
          match np.1 with
          | .stmt (.classDef n _ body _ _ _) =>
            if n = class_name then
              (findDirectMethod body method_name).map (getNodeSource repo target)
            else none
          | _ => none)

/-- `ASTNodeAnalyzer.get_component_by_path`
(src/agent/tool/internal_traverse.py:22-61). -/
def get_component_by_path (repo : List RepoFile) (ast_node : PyStmt)
    (ast_tree : PyModule) (dependency_path : String) : Option String :=
  let parts := pySplit dependency_path '.'
  if parts.length < 2 then none
  else
    let last_part := parts.getLastD ""
    let second_last := (parts.dropLast).getLastD ""
    if parts.length ≥ 3 ∧ second_last ≠ "self" ∧ firstCharLower last_part ∧
        firstCharUpper second_last then
      get_method_component repo ast_node ast_tree dependency_path
    else if firstCharUpper last_part then
      get_class_component repo ast_node dependency_path
    else
      get_function_component repo ast_node ast_tree dependency_path

/-- `ASTNodeAnalyzer.get_child_class_init`
(src/agent/tool/internal_traverse.py:226-274), with the `ast.parse` of the
retrieved class source supplied as the already-parsed node: the class
header through the end of `__init__` when a constructor exists, otherwise
the whole class text. -/
def get_child_class_init_lines (class_code : String) (classNode : PyStmt) :
    String :=
  match classNode with
  | .classDef _ _ body lineno _ _ =>
    match body.find? (fun s =>
        match s with
        | .functionDef n _ _ _ _ _ => n = "__init__"
        | _ => false) with
    | some (.functionDef _ _ _ _ initEnd _) =>
      let class_lines := pySplit class_code '\n'
      let init_end_line := min (initEnd - lineno + 1) class_lines.length
      joinWith "\n" (class_lines.take init_end_line)
    | _ => class_code
  | _ => class_code

/-! ## `Searcher._gather_internal_info` (src/agent/searcher.py:164-310) -/

/-- The `internal` half of the searcher's result dictionary. -/
structure InternalInfo where
  classes : List (String × String)
  functions : List (String × String)
  methods : List (String × String)
  called_by : List String
deriving Repr

/-- Python dict write: replace the binding or append it. -/
def assocSet (l : List (String × String)) (k v : String) :
    List (String × String) :=
  if (l.find? (fun p => p.1 = k)).isSome then
    l.map (fun p => if p.1 = k then (k, v) else p)
  else l ++ [(k, v)]

/-- The inner requested-name loop of the class branch: stop at the first
requested name that matches and retrieves a truthy snippet. -/
def gatherClassInner (repo : List RepoFile) (ast_node : PyStmt)
    (ast_tree : PyModule) (dep class_name : String) :
    List String → List (String × String) → List (String × String)
  | [], acc => acc
  | req :: rest, acc =>
    if req = class_name ∨ substrB dep req ∨ endsWithB class_name req then
      match get_component_by_path repo ast_node ast_tree dep with
      | some code =>
        if code ≠ "" then assocSet acc req code
        else gatherClassInner repo ast_node ast_tree dep class_name rest acc
      | none => gatherClassInner repo ast_node ast_tree dep class_name rest acc
    else gatherClassInner repo ast_node ast_tree dep class_name rest acc

/-- The inner requested-name loop of the function branch. -/
def gatherFunctionInner (repo : List RepoFile) (ast_node : PyStmt)
    (ast_tree : PyModule) (dep function_name : String) :
    List String → List (String × String) → List (String × String)
  | [], acc => acc
  | req :: rest, acc =>
    if req = function_name ∨ substrB dep req ∨ endsWithB function_name req then
      match get_component_by_path repo ast_node ast_tree dep with
      | some code =>
        if code ≠ "" then assocSet acc req code
        else gatherFunctionInner repo ast_node ast_tree dep function_name rest acc
      | none => gatherFunctionInner repo ast_node ast_tree dep function_name rest acc
    else gatherFunctionInner repo ast_node ast_tree dep function_name rest acc

/-- The inner requested-name loop of the method branch. -/
def gatherMethodInner (repo : List RepoFile) (ast_node : PyStmt)
    (ast_tree : PyModule) (dep method_name full_method_name : String) :
    List String → List (String × String) → List (String × String)
  | [], acc => acc
  | req :: rest, acc =>
    if req = full_method_name ∨ req = method_name ∨ substrB dep req ∨
        endsWithB method_name req then
      match get_component_by_path repo ast_node ast_tree dep with
      | some code =>
        if code ≠ "" then assocSet acc req code
        else gatherMethodInner repo ast_node ast_tree dep method_name
          full_method_name rest acc
      | none => gatherMethodInner repo ast_node ast_tree dep method_name
          full_method_name rest acc
    else gatherMethodInner repo ast_node ast_tree dep method_name
      full_method_name rest acc

/-- `ASTNodeAnalyzer.get_parent_components`
(src/agent/tool/internal_traverse.py:314-375) in the dependency-graph
branch (the searcher always passes the graph; an empty graph falls back to
a current-file scan, which no embedded scenario exercises and which is
modelled by the same graph branch applied to the empty graph, returning
no parents either way). -/
def get_parent_components (repo : List RepoFile) (ast_node : PyStmt)
    (ast_tree : PyModule) (dependency_path : String) (graph : Graph) :
    List String :=
  let parent_ids := (graph.filter (fun p => dependency_path ∈ p.2)).map Prod.fst
  parent_ids.foldl (fun acc pid =>
    match get_component_by_path repo ast_node ast_tree pid with
    | some code => if code ≠ "" then acc ++ [code] else acc
    | none => acc) []

/-- `Searcher._gather_internal_info` (src/agent/searcher.py:164-310). -/
def gather_internal_info (repo : List RepoFile) (ast_node : PyStmt)
    (ast_tree : PyModule) (focal_dependency_path : String) (graph : Graph)
    (req : ParsedInfoRequest) : InternalInfo :=
  let component_dependencies := depsOf graph focal_dependency_path
  let classes :=
    if req.call_class.isEmpty then []
    else component_dependencies.foldl (fun acc dep =>
      let path_parts := pySplit dep '.'
      if path_parts ≠ [] ∧ firstCharUpper (path_parts.getLastD "") then
        gatherClassInner repo ast_node ast_tree dep (path_parts.getLastD "")
          req.call_class acc
      else acc) []
  let functions :=
    if req.call_function.isEmpty then []
    else component_dependencies.foldl (fun acc dep =>
      let path_parts := pySplit dep '.'
      if path_parts ≠ [] ∧ firstCharLower (path_parts.getLastD "") then
        if path_parts.length ≥ 2 ∧
            firstCharUpper ((path_parts.dropLast).getLastD "") then acc
        else
          gatherFunctionInner repo ast_node ast_tree dep
            (path_parts.getLastD "") req.call_function acc
      else acc) []
  let methods :=
    if req.call_method.isEmpty then []
    else component_dependencies.foldl (fun acc dep =>
      let path_parts := pySplit dep '.'
      if path_parts.length ≥ 2 ∧ firstCharLower (path_parts.getLastD "") ∧
          firstCharUpper ((path_parts.dropLast).getLastD "") then
        let method_name := path_parts.getLastD ""
        let class_name := (path_parts.dropLast).getLastD ""
        gatherMethodInner repo ast_node ast_tree dep method_name
          (class_name ++ "." ++ method_name) req.call_method acc
      else acc) []
  let called_by :=
    if req.call_by then
      let parents := get_parent_components repo ast_node ast_tree
        focal_dependency_path graph
      if parents.isEmpty then
        ["This component is never called by any other component."]
      else parents
    else []
  ⟨classes, functions, methods, called_by⟩

/-! ## The sequential main loop of `generate_docstrings.main` (C3)

Each component in the computed order is either skipped (constructor or
existing long docstring without the overwrite flag) or processed and then
written back; the loop is strictly sequential.  The trace records the
events in execution order. -/

inductive MainEvent where
  | skipMissing (id : String)
  | skipInit (id : String)
  | skipExisting (id : String)
  | start (id : String)
  | write (id : String)
deriving DecidableEq, Repr

/-- Python `str.split()` with no separator: whitespace-separated words. -/
def pyWords (s : String) : List String :=
  ((splitOnPred isPyWhitespace s.data).map String.mk).filter (fun w => w ≠ "")

/-- One loop iteration's events for a component
(src/generate_docstrings.py:518-560). -/
def mainStep (components : List (String × Comp)) (overwrite : Bool)
    (component_id : String) : List MainEvent :=
  match components.find? (fun p => p.1 = component_id) with
  | none => [.skipMissing component_id]
  | some p =>
    if p.2.component_type = "method" ∧ endsWithB component_id ".__init__" then
      [.skipInit component_id]
    else
      let docstring_length :=
        if p.2.has_docstring then (pyWords p.2.docstring).length else 0
      if p.2.has_docstring ∧ ¬ overwrite ∧ docstring_length > 10 then
        [.skipExisting component_id]
      else
        [.start component_id, .write component_id]

/-- The whole sequential processing loop over the sorted component list
(src/generate_docstrings.py:517-577). -/
def mainLoopTrace (components : List (String × Comp)) (overwrite : Bool)
    (order : List String) : List MainEvent :=
  order.flatMap (mainStep components overwrite)

/-- Nonempty directed paths in a graph: `Path g a b` holds when there is a
chain of one or more dependency edges from `a` to `b`. -/
inductive Path (g : Graph) : String → String → Prop
  | single {a b : String} : b ∈ depsOf g a → Path g a b
  | cons {a b c : String} : b ∈ depsOf g a → Path g b c → Path g a c

/-- A graph is acyclic when no node has a nonempty path back to itself. -/
def Acyclic (g : Graph) : Prop := ∀ a, ¬ Path g a a

/-- The body update of `set_node_docstring`
(src/generate_docstrings.py:325-341): replace an existing leading
string-literal statement, otherwise insert the new docstring node first. -/
def setNodeDocstringBody (body : List PyStmt) (prepared : String) :
    List PyStmt :=
  let docstring_node := PyStmt.exprStmt (.constStr prepared)
  match body with
  | [] => [docstring_node]
  | first :: rest =>
    match first with
    | .exprStmt (.constStr _) => docstring_node :: rest
    | _ => docstring_node :: first :: rest

/-- Index of the first occurrence of `a` in `l` (the length of `l` when
absent). -/
def firstPosOf {α : Type} [DecidableEq α] : List α → α → Nat
  | [], _ => 0
  | x :: xs, a => if x = a then 0 else firstPosOf xs a + 1

/-- The top-level sections of the merged-context skeleton named by the
specification. -/
def skeletonSections : List String :=
  ["CLASS", "FUNCTION", "METHOD", "CALL_BY", "EXTERNAL_RETRIEVAL_INFO"]

/-- The claim under test for C1, at one merge instance: whenever
context + focal tokens exceed the budget after the merge, some largest
top-level skeleton section has been truncated from its tail by exactly the
excess (checked both for the bare truncation and for the
newline-rewrapped form the substitution would produce). -/
def claimC1Check (enc : Encoding) (budget focal : Nat) (ctx : String)
    (sr : SearchResults) : Bool :=
  let merged := update_context_merge ctx sr
  let final := constrain_context_length enc budget focal merged
  let cur := (enc.encode merged).length
  if cur + focal ≤ budget then true
  else
    let k := cur + focal - budget
    skeletonSections.any (fun name =>
      match findTagContent merged name with
      | none => false
      | some content =>
        let truncated := truncateSection enc content k
        (skeletonSections.all (fun other =>
          match findTagContent merged other with
          | none => true
          | some oc => (enc.encode oc).length ≤ (enc.encode content).length))
        && (findTagContent final name = some truncated ||
            findTagContent final name = some ("\n" ++ truncated ++ "\n")))

/-! ## Concrete scenario inputs used by the claim theorems -/

/-- Scenario A of the specification: `a.py` is `def f(): return g()` and
`b.py` is `def g(): return 1` (already parsed; no import statements). -/
def repoScenarioA : List (String × PyModule) :=
  [("a", ⟨[.functionDef "f" [] [.ret (some (.call (.name "g" true) []))] 1 2 0]⟩),
   ("b", ⟨[.functionDef "g" [] [.ret (some (.constInt 1))] 1 2 0]⟩)]

/-- The triangle graph `a → b → c → a`: one strongly connected component
whose Tarjan pop order has no two consecutive nodes joined by an edge. -/
def triangleGraph : Graph := [("a", ["b"]), ("b", ["c"]), ("c", ["a"])]

/-- Focal component of the C8 scenario: a function whose body instantiates
the class `Widget`. -/
def c8FocalNode : PyStmt :=
  .functionDef "foo" [] [.exprStmt (.call (.name "Widget" true) [])] 1 2 0

/-- Source text of the `Widget` class. -/
def c8WidgetSrc : String :=
  "class Widget:\n    def __init__(self):\n        pass\n" ++
  "    def run(self):\n        pass"

/-- Parse tree of the `Widget` class (lines 1–5, constructor on lines 2–3). -/
def c8WidgetNode : PyStmt :=
  .classDef "Widget" []
    [.functionDef "__init__" ["self"] [.passStmt] 2 3 4,
     .functionDef "run" ["self"] [.passStmt] 4 5 4] 1 5 0

/-- The file tree containing the focal function and the class. -/
def c8TreeLocal : PyModule := ⟨[c8FocalNode, c8WidgetNode]⟩

/-- Dependency graph of the C8 scenario. -/
def c8Graph : Graph := [("m.foo", ["m.Widget"])]

/-- The reader request of the C8 scenario: the class `Widget`. -/
def c8Request : ParsedInfoRequest := ⟨["Widget"], [], [], false, []⟩

/-- A focal component that does not instantiate `Widget` (second C8
scenario, resolved through the repository file). -/
def c8BarNode : PyStmt := .functionDef "bar" [] [.passStmt] 1 2 0

/-- The repository holding `m.py` with the `Widget` class. -/
def c8Repo : List RepoFile := [⟨"m.py", c8WidgetSrc, ⟨[c8WidgetNode]⟩⟩]

/-- Search results of the C1 scenario: one class snippet merged into an
empty context, no other results. -/
def c1SearchResults : SearchResults :=
  ⟨[("W", "AAAAAAAAAAAAAAAAAAAAAAAAAAAAAAAAAAAAAAAA")], [], [], [], []⟩

/-- The C1 context after the merge, before budget enforcement. -/
def c1Merged : String := update_context_merge "" c1SearchResults

/-- The two-node acyclic graph `x → y` used by the C3 witness. -/
def gXY : Graph := [("x", ["y"]), ("y", [])]

/-- Components for the C3 witness main loop. -/
def compsXY : List (String × Comp) :=
  [("x", { component_type := "function", depends_on := ["y"] }),
   ("y", { component_type := "function", depends_on := [] })]

/-! ## Proof infrastructure for the Tarjan and DFS arguments -/

/-- The state well-formedness that Tarjan's algorithm preserves on acyclic
graphs: lowlink agrees with index everywhere, indices are below the
counter, and the on-stack set equals the stack. -/
def TarjanInv (st : TarjanSt) : Prop :=
  (∀ w, alook st.lowlink w = alook st.index w) ∧
  (∀ w n, alook st.index w = some n → n < st.counter) ∧
  st.onstack = st.stack

/-- Number of universe nodes not yet indexed (the fuel measure). -/
def unidx (g : Graph) (st : TarjanSt) : Nat :=
  ((univNodes g).filter (fun w => (alook st.index w).isNone)).length

/-- Precondition of a `strongconnect` call on an acyclic graph. -/
def TarjanPre (g : Graph) (node : String) (st : TarjanSt) : Prop :=
  TarjanInv st ∧ alook st.index node = none ∧
  (∀ w ∈ st.stack, Path g w node) ∧ node ∈ univNodes g

/-- Postcondition of a `strongconnect` call on an acyclic graph: the state
stays well-formed, the stack and the recorded components are untouched,
the node is indexed at the entry counter, and the index map only grew. -/
def TarjanPost (g : Graph) (node : String) (st st2 : TarjanSt) : Prop :=
  TarjanInv st2 ∧ st2.stack = st.stack ∧ st2.onstack = st.onstack ∧
  st2.sccs = st.sccs ∧
  (∀ w n, alook st.index w = some n → alook st2.index w = some n) ∧
  alook st2.index node = some st.counter ∧
  st.counter < st2.counter ∧
  (∀ w n, alook st2.index w = some n →
    alook st.index w = some n ∨ st.counter ≤ n) ∧
  unidx g st2 < unidx g st

/-- Invariant carried through the successor fold of `strongconnect`. -/
def TarjanFoldInv (g : Graph) (node : String) (st0 stI : TarjanSt) : Prop :=
  TarjanInv stI ∧
  stI.stack = node :: st0.stack ∧
  stI.sccs = st0.sccs ∧
  alook stI.index node = some st0.counter ∧
  st0.counter < stI.counter ∧
  (∀ w n, alook stI.index w = some n →
    alook st0.index w = some n ∨ st0.counter ≤ n) ∧
  (∀ w n, alook (aset st0.index node st0.counter) w = some n →
    alook stI.index w = some n) ∧
  unidx g stI + 1 ≤ unidx g st0

instance : Membership (String × List String) Graph := by
  unfold Graph
  infer_instance

/-- A result list is dependency-first ordered: wherever an element sits,
all its dependencies occur strictly before it. -/
def OrderedRes (ag : Graph) (res : List String) : Prop :=
  ∀ l1 a l2, res = l1 ++ a :: l2 → ∀ b ∈ depsOf ag a, b ∈ l1

/-- The invariant of the `dfs` recursion: the visited set is exactly the
gray (currently open) nodes together with the emitted result, the result
has no duplicates, no gray node was emitted yet, and the result is
dependency-first ordered. -/
def DfsInv (ag : Graph) (gray : List String) (s : DfsSt) : Prop :=
  (∀ w, w ∈ s.visited ↔ w ∈ gray ∨ w ∈ s.result) ∧
  s.result.Nodup ∧
  (∀ w ∈ s.result, w ∉ gray) ∧
  OrderedRes ag s.result

/-- Number of universe nodes not yet visited (the DFS fuel measure). -/
def dfsUnvis (ag : Graph) (s : DfsSt) : Nat :=
  ((univNodes ag).filter (fun w => decide (w ∉ s.visited))).length

/-- The id carried by a main-loop event. -/
def eventId : MainEvent → String
  | .skipMissing i => i
  | .skipInit i => i
  | .skipExisting i => i
  | .start i => i
  | .write i => i

/-! # Theorems -/

set_option maxRecDepth 100000

/-- Dedenting the placeholder text leaves it unchanged. -/
theorem pyDedent_noDoc :
    pyDedent "No docstring provided." = "No docstring provided." := by decide

/-- Indenting the single-line placeholder prepends the margin. -/
theorem pyIndent_single (pre : String) :
    pyIndent "No docstring provided." pre = pre ++ "No docstring provided." := by
  unfold pyIndent
  rw [show pySplit "No docstring provided." '\n' = ["No docstring provided."]
    from by decide]
  have h : pyStrip "No docstring provided." ≠ "" := by decide
  simp [h]
  rfl

/-- C9: a focal component larger than 10000 tokens is truncated to its
first 10000 tokens, while the untruncated token count is what is passed on
as `token_consume_focal`. -/
theorem C9_focal_truncation (enc : Encoding) (code : String)
    (h : (enc.encode code).length > 10000) :
    generate_docstring_focal_args enc code =
      (enc.decode ((enc.encode code).take 10000), (enc.encode code).length) := by
  simp [generate_docstring_focal_args, h]

/-- Witness for C9 at a concrete 10001-token component. -/
theorem C9_witness :
    (charEncoding.encode (String.mk (List.replicate 10001 'a'))).length > 10000 ∧
    generate_docstring_focal_args charEncoding
        (String.mk (List.replicate 10001 'a')) =
      (charEncoding.decode ((charEncoding.encode
        (String.mk (List.replicate 10001 'a'))).take 10000),
       (charEncoding.encode (String.mk (List.replicate 10001 'a'))).length) := by
  have h : (charEncoding.encode (String.mk (List.replicate 10001 'a'))).length
      > 10000 := by
    show 10000 < ((String.mk (List.replicate 10001 'a')).data.map
      Char.toNat).length
    rw [show (String.mk (List.replicate 10001 'a')).data =
      List.replicate 10001 'a' from rfl]
    rw [List.length_map, List.length_replicate]
    norm_num
  exact ⟨h, C9_focal_truncation charEncoding _ h⟩

/-- C10: a docstring that is empty after stripping newlines is replaced by
the placeholder text, and the prepared string literal is installed as the
first body statement. -/
theorem C10_empty_docstring_placeholder (col_offset : Nat) (doc : String)
    (h : pyStripNewlines doc = "") :
    ContainsSubstr (set_node_docstring_text col_offset doc)
      "No docstring provided." ∧
    ∀ body : List PyStmt,
      (setNodeDocstringBody body (set_node_docstring_text col_offset doc)).head?
        = some (.exprStmt (.constStr (set_node_docstring_text col_offset doc))) := by
  constructor
  · refine ⟨"\n" ++ String.mk (List.replicate (col_offset + 4) ' '),
      "\n" ++ String.mk (List.replicate (col_offset + 4) ' '), ?_⟩
    unfold set_node_docstring_text
    rw [h]
    simp [pyDedent_noDoc, pyIndent_single, String.append_assoc]
    congr 1
  · intro body
    unfold setNodeDocstringBody
    match body with
    | [] => rfl
    | first :: rest =>
      cases first with
      | exprStmt e => cases e <;> rfl
      | _ => rfl

/-- Witness for C10 at a newline-only docstring and offset 0. -/
theorem C10_witness :
    pyStripNewlines "\n\n" = "" ∧
    ContainsSubstr (set_node_docstring_text 0 "\n\n") "No docstring provided." :=
  ⟨by decide, (C10_empty_docstring_placeholder 0 "\n\n" (by decide)).1⟩

/-- C2: on the triangle graph `a → b → c → a`, Tarjan's pop order is
`[c, b, a]`, no two consecutive nodes of which are joined by an edge, so
`resolve_cycles` removes no edge at all and returns the graph unchanged —
which still contains the cycle, contradicting its own documented
contract of producing an acyclic graph. -/
theorem C2_resolve_cycles_triangle :
    detect_cycles triangleGraph = [["c", "b", "a"]] ∧
    resolve_cycles triangleGraph = triangleGraph ∧
    Path (resolve_cycles triangleGraph) "a" "a" := by
  refine ⟨by decide, by decide, ?_⟩
  rw [show resolve_cycles triangleGraph = triangleGraph from by decide]
  exact Path.cons (b := "b") (by decide)
    (Path.cons (b := "c") (by decide) (Path.single (by decide)))

/-- C4 counterexample: on scenario A's two files the computed order is not
`[b.g, a.f]` (there is no import of `g` in `a.py`, so no edge links the
two components and roots are processed in sorted id order). -/
theorem C4_counterexample :
    dependency_first_dfs (build_graph_from_components
      (parse_repository repoScenarioA)) ≠ ["b.g", "a.f"] := by decide

/-- C4 (amended): the computed order for scenario A is `[a.f, b.g]`. -/
theorem C4_scenario_a_order :
    dependency_first_dfs (build_graph_from_components
      (parse_repository repoScenarioA)) = ["a.f", "b.g"] := by decide

/-- C8 counterexample: in a scenario where the focal component
instantiates the requested class (which has a constructor), the snippet
the searcher stores is not the class header through the end of the
constructor. -/
theorem C8_counterexample :
    ((gather_internal_info [] c8FocalNode c8TreeLocal "m.foo" c8Graph
        c8Request).classes.find? (fun p => p.1 = "Widget")).map Prod.snd ≠
      some (get_child_class_init_lines c8WidgetSrc c8WidgetNode) := by decide

/-- C8 (amended): the searcher resolves a requested class through
`get_component_by_path`: the call stub `Widget(...)` when the focal
component instantiates the class, the whole class text otherwise; the
header-through-constructor snippet of `get_child_class_init` (shown in the
third conjunct) is not what is stored. -/
theorem C8_class_snippet_amended :
    (gather_internal_info [] c8FocalNode c8TreeLocal "m.foo" c8Graph
      c8Request).classes = [("Widget", "Widget(...)")] ∧
    (gather_internal_info c8Repo c8BarNode ⟨[c8BarNode]⟩ "m.bar"
      [("m.bar", ["m.Widget"])] c8Request).classes = [("Widget", c8WidgetSrc)] ∧
    get_child_class_init_lines c8WidgetSrc c8WidgetNode =
      "class Widget:\n    def __init__(self):\n        pass" :=
  ⟨by decide, by decide, by decide⟩

/-- C1 counterexample: at a concrete merge that overflows the budget,
no largest top-level skeleton section is tail-truncated by the excess (the
code truncates `EXTERNAL_RETRIEVAL_INFO`, the only tag of the skeleton it
searches for, leaving the largest section `CLASS` untouched). -/
theorem C1_counterexample :
    claimC1Check charEncoding 50 0 "" c1SearchResults = false := by decide

/-- The first maximal candidate returned by `pickLargest` is a candidate. -/
theorem pickLargest_mem (enc : Encoding) :
    ∀ (cands : List (String × String)) (nc : String × String),
      pickLargest enc cands = some nc → nc ∈ cands := by
  have aux : ∀ (l : List (String × String)) (init : String × String),
      l.foldl (fun best x =>
        if (enc.encode x.2).length > (enc.encode best.2).length then x
        else best) init ∈ init :: l := by
    intro l
    induction l with
    | nil => intro init; simp
    | cons x xs ih =>
      intro init
      simp only [List.foldl]
      by_cases hx : (enc.encode x.2).length > (enc.encode init.2).length
      · rw [if_pos hx]
        rcases List.mem_cons.mp (ih x) with h | h
        · rw [h]; exact List.mem_cons_of_mem _ (List.mem_cons_self _ _)
        · exact List.mem_cons_of_mem _ (List.mem_cons_of_mem _ h)
      · rw [if_neg hx]
        rcases List.mem_cons.mp (ih init) with h | h
        · rw [h]; exact List.mem_cons_self _ _
        · exact List.mem_cons_of_mem _ (List.mem_cons_of_mem _ h)
  intro cands nc h
  match cands, h with
  | c :: rest, h =>
    simp only [pickLargest, Option.some.injEq] at h
    rw [← h]
    exact aux rest c

/-- C1 (amended): whenever `_constrain_context_length` changes the context
at all, the section it truncates is one of the five tags it searches for
(`CODE_CONTEXT`, `FOCAL_COMPONENT`, `RELATED_COMPONENTS`,
`FOCAL_DEPENDENCIES`, `EXTERNAL_RETRIEVAL_INFO`), rewritten to the tail
truncation by exactly `context + focal − budget` tokens; in the merged
context skeleton only `EXTERNAL_RETRIEVAL_INFO` exists, so at the concrete
overflowing merge it is the truncated (here: emptied) section, and the
largest section `CLASS` is left unchanged. -/
theorem C1_truncation_amended :
    (∀ (enc : Encoding) (budget focal : Nat) (ctx : String),
      constrain_context_length enc budget focal ctx = ctx ∨
      ∃ name content, name ∈ constrainCandidates ∧
        findTagContent ctx name = some content ∧
        constrain_context_length enc budget focal ctx =
          replaceTagAll ctx name
            ("\n" ++ truncateSection enc content
              ((enc.encode ctx).length + focal - budget) ++ "\n")) ∧
    update_context charEncoding 50 0 "" c1SearchResults =
      replaceTagAll c1Merged "EXTERNAL_RETRIEVAL_INFO" "\n\n" ∧
    findTagContent (update_context charEncoding 50 0 "" c1SearchResults) "CLASS"
      = findTagContent c1Merged "CLASS" := by
  refine ⟨?_, by decide, by decide⟩
  intro enc budget focal ctx
  have hck : constrain_context_length enc budget focal ctx =
      (if (enc.encode ctx).length + focal ≤ budget then ctx
      else
        match pickLargest enc (constrainCandidates.filterMap (fun name =>
          (findTagContent ctx name).map (fun c => (name, c)))) with
        | none => ctx
        | some nc =>
          if (enc.encode ctx).length + focal - budget = 0 then ctx
          else
            replaceTagAll ctx nc.1 ("\n" ++ truncateSection enc nc.2
              ((enc.encode ctx).length + focal - budget) ++ "\n")) := rfl
  rw [hck]
  split
  · exact Or.inl rfl
  · cases hpl : pickLargest enc (constrainCandidates.filterMap (fun name =>
      (findTagContent ctx name).map (fun c => (name, c)))) with
    | none => simp [hpl]
    | some nc =>
      simp only [hpl]
      split
      · exact Or.inl rfl
      · right
        have hmem := pickLargest_mem enc _ nc hpl
        rcases List.mem_filterMap.mp hmem with ⟨name, hname, hf⟩
        cases hft : findTagContent ctx name with
        | none => rw [hft] at hf; simp at hf
        | some content =>
          rw [hft] at hf
          have hf2 : nc = (name, content) := by simpa using hf.symm
          subst hf2
          exact ⟨name, content, hname, hft, rfl⟩

/-- C7: a reader response without a well-formed `REQUEST` block parses to
the empty request; a verifier response without a `NEED_REVISION` block
parses to the safe defaults; and with those defaults the inner loop
returns (commits) the writer's current docstring. -/
theorem C7_malformed_safe_defaults :
    (∀ (etParse : String → Option EtFields) (resp : String),
      (findTagContent resp "REQUEST" = none →
        parse_reader_response etParse resp = emptyInfoRequest) ∧
      (∀ inner, findTagContent resp "REQUEST" = some inner →
        etParse ("<REQUEST>" ++ inner ++ "</REQUEST>") = none →
        parse_reader_response etParse resp = emptyInfoRequest)) ∧
    (∀ resp : String, findTagContent resp "NEED_REVISION" = none →
      parse_verifier_response resp = ⟨false, false, "", ""⟩) ∧
    (∀ (rMax vMax fuel : Nat) (st : OrchSt) (o : Oracle) (d vresp : String)
        (ws vs : List String),
      findTagContent vresp "NEED_REVISION" = none →
      o.writerResponses = d :: ws → o.verifierResponses = vs.cons vresp →
      (process_inner rMax vMax (fuel + 1) st o).1 = .commit d) := by
  refine ⟨?_, ?_, ?_⟩
  · intro etParse resp
    constructor
    · intro h
      simp [parse_reader_response, h]
    · intro inner h1 h2
      simp [parse_reader_response, h1, h2]
  · intro resp h
    simp [parse_verifier_response, h]
  · intro rMax vMax fuel st o d vresp ws vs hnr hw hv
    have hres : parse_verifier_response vresp = ⟨false, false, "", ""⟩ := by
      simp [parse_verifier_response, hnr]
    unfold process_inner
    rcases o with ⟨rr, srs, ws0, vs0⟩
    simp only at hw hv
    subst hw hv
    dsimp only
    rw [if_pos]
    exact Or.inl (by rw [hres]; simp)

/-- Witness for C7 at concrete malformed responses. -/
theorem C7_witness :
    parse_reader_response (fun _ => none) "no request here" = emptyInfoRequest ∧
    parse_verifier_response "plain text" = ⟨false, false, "", ""⟩ ∧
    (process_inner 4 3 1 ⟨0, 0, "", [], [], []⟩
      ⟨[], [], ["the docstring"], ["plain text"]⟩).1 = .commit "the docstring" := by
  refine ⟨(C7_malformed_safe_defaults.1 (fun _ => none) "no request here").1
      (by decide),
    C7_malformed_safe_defaults.2.1 "plain text" (by decide),
    C7_malformed_safe_defaults.2.2 4 3 0 ⟨0, 0, "", [], [], []⟩
      ⟨[], [], ["the docstring"], ["plain text"]⟩ "the docstring" "plain text"
      [] [] (by decide) rfl rfl⟩

/-- The per-iteration counter bounds of the inner writer–verifier loop:
along any run the reader counter is untouched and the rejection counter
stays within `vMax`. -/
theorem process_inner_spec (rMax vMax : Nat) :
    ∀ (fuel : Nat) (st : OrchSt) (o : Oracle), st.v ≤ vMax →
      (∀ p ∈ (process_inner rMax vMax fuel st o).2.2.2,
        p.1 = st.r ∧ p.2 ≤ vMax) ∧
      (process_inner rMax vMax fuel st o).2.1.r = st.r ∧
      (process_inner rMax vMax fuel st o).2.1.v ≤ vMax := by
  intro fuel
  induction fuel with
  | zero =>
    intro st o hv
    simp [process_inner]
    exact hv
  | succ fuel ih =>
    intro st o hv
    unfold process_inner
    rcases o with ⟨rr, srs, ws, vs⟩
    dsimp only
    cases ws with
    | nil => simpa using hv
    | cons d wrest =>
      cases vs with
      | nil => simpa using hv
      | cons vresp vrest =>
        dsimp only
        split
        · refine ⟨?_, rfl, hv⟩
          intro p hp
          rcases List.mem_cons.mp hp with h | h
          · subst h; exact ⟨rfl, hv⟩
          · simp at h
        · next hc =>
          push_neg at hc
          split
          · dsimp only
            refine ⟨?_, rfl, hc.2⟩
            intro p hp
            rcases List.mem_cons.mp hp with h | h
            · subst h; exact ⟨rfl, hv⟩
            · simp at h
          · dsimp only
            obtain ⟨h1, h2, h3⟩ := ih
              { r := st.r, v := st.v + 1, context := st.context,
                readerMem := st.readerMem,
                writerMem := st.writerMem ++ [("assistant", d)] ++
                  [("user",
                    "Please improve the docstring based on this suggestion: " ++
                    (parse_verifier_response vresp).suggestion)],
                verifierMem := [] }
              { readerResponses := rr, searchResults := srs,
                writerResponses := wrest, verifierResponses := vrest }
              hc.2
            refine ⟨?_, h2, h3⟩
            intro p hp
            rcases List.mem_cons.mp hp with h | h
            · subst h; exact ⟨rfl, hv⟩
            · exact h1 p h

/-- The per-iteration counter bounds of the outer reader–searcher loop. -/
theorem process_outer_spec (rMax vMax : Nat) (enc : Encoding) (mt : Nat)
    (prompt : String) (focal : Nat) :
    ∀ (fuel : Nat) (st : OrchSt) (o : Oracle), st.r ≤ rMax → st.v ≤ vMax →
      ∀ p ∈ (process_outer rMax vMax enc mt prompt focal fuel st o).2.2.2,
        p.1 ≤ rMax ∧ p.2 ≤ vMax := by
  intro fuel
  induction fuel with
  | zero =>
    intro st o hr hv p hp
    simp [process_outer] at hp
  | succ fuel ih =>
    intro st o hr hv
    unfold process_outer
    rcases o with ⟨rr, srs, ws, vs⟩
    dsimp only
    cases rr with
    | nil => intro p hp; simp at hp
    | cons rresp rs =>
      dsimp only
      split
      · next hc =>
        cases srs with
        | nil =>
          intro p hp
          rcases List.mem_cons.mp hp with h | h
          · subst h; exact ⟨hr, hv⟩
          · simp at h
        | cons sr ss =>
          dsimp only
          intro p hp
          rcases List.mem_cons.mp hp with h | h
          · subst h; exact ⟨hr, hv⟩
          · exact ih _ _ (by exact hc.2) (by exact hv) p h
      · next hc =>
        obtain ⟨ht1, ht2, ht3⟩ := process_inner_spec rMax vMax fuel
          { st with readerMem := st.readerMem ++ [("assistant", rresp)] }
          { readerResponses := rs, searchResults := srs,
            writerResponses := ws, verifierResponses := vs } hv
        split
        · next d heq =>
          intro p hp
          rcases List.mem_cons.mp hp with h | h
          · subst h; exact ⟨hr, hv⟩
          · have := ht1 p h
            exact ⟨this.1 ▸ hr, this.2⟩
        · next heq =>
          intro p hp
          rcases List.mem_cons.mp hp with h | h
          · subst h; exact ⟨hr, hv⟩
          · have := ht1 p h
            exact ⟨this.1 ▸ hr, this.2⟩
        · next heq =>
          intro p hp
          rcases List.mem_cons.mp hp with h | h
          · subst h; exact ⟨hr, hv⟩
          · rcases List.mem_append.mp h with h2 | h2
            · have := ht1 p h2
              exact ⟨this.1 ▸ hr, this.2⟩
            · refine ih _ _ ?_ ?_ p h2
              · rw [ht2]; exact hr
              · exact ht3

/-- C6: starting from zero counters, at every loop iteration of
`Orchestrator.process` the pair `(reader_search_attempts,
verifier_rejection_count)` stays within `(Rmax, Vmax)`; and once the
Verifier bound is reached, the next inner iteration commits the current
docstring. -/
theorem C6_counter_bounds (rMax vMax : Nat) (enc : Encoding) (mt : Nat)
    (prompt : String) (focal fuel : Nat) (o : Oracle) :
    (∀ p ∈ (process rMax vMax enc mt prompt focal fuel o).2.2.2,
      p.1 ≤ rMax ∧ p.2 ≤ vMax) ∧
    (∀ (st : OrchSt) (o2 : Oracle) (fuel2 : Nat) (d vresp : String)
        (ws vs : List String),
      st.v ≥ vMax → o2.writerResponses = d :: ws →
      o2.verifierResponses = vs.cons vresp →
      (process_inner rMax vMax (fuel2 + 1) st o2).1 = .commit d) := by
  constructor
  · exact process_outer_spec rMax vMax enc mt prompt focal fuel
      ⟨0, 0, "", [], [], []⟩ o (Nat.zero_le _) (Nat.zero_le _)
  · intro st o2 fuel2 d vresp ws vs hvmax hw hv
    unfold process_inner
    rcases o2 with ⟨rr, srs, ws0, vs0⟩
    simp only at hw hv
    subst hw hv
    dsimp only
    rw [if_pos (Or.inr hvmax)]

/-- Witness for C6: a concrete two-iteration run and a concrete
at-the-bound commit. -/
theorem C6_witness :
    ((0, 0) ∈ (process 4 3 charEncoding 10000 "sys" 0 2
      ⟨["nothing needed"], [], ["doc"], ["looks fine"]⟩).2.2.2 ∧
      ((0 : Nat) ≤ 4 ∧ (0 : Nat) ≤ 3)) ∧
    (process_inner 4 3 1 ⟨0, 3, "", [], [], []⟩
      ⟨[], [], ["doc"], ["<NEED_REVISION>true</NEED_REVISION>"]⟩).1 =
      .commit "doc" := by
  refine ⟨⟨by decide, ?_⟩, ?_⟩
  · exact (C6_counter_bounds 4 3 charEncoding 10000 "sys" 0 2
      ⟨["nothing needed"], [], ["doc"], ["looks fine"]⟩).1 (0, 0) (by decide)
  · exact (C6_counter_bounds 4 3 charEncoding 10000 "sys" 0 0
      ⟨[], [], [], []⟩).2 ⟨0, 3, "", [], [], []⟩
      ⟨[], [], ["doc"], ["<NEED_REVISION>true</NEED_REVISION>"]⟩ 0 "doc"
      "<NEED_REVISION>true</NEED_REVISION>" [] [] (by decide) rfl rfl


theorem mem_setInsert_of_mem {l : List String} {x : String} (y : String)
    (h : x ∈ l) : x ∈ setInsert l y := by
  unfold setInsert
  split
  · exact h
  · exact List.mem_append_left _ h

theorem mem_setInsert_self (l : List String) (y : String) :
    y ∈ setInsert l y := by
  unfold setInsert
  split
  · assumption
  · exact List.mem_append_right _ (List.mem_singleton.mpr rfl)

theorem mem_foldl_setInsert_of_init {l : List String} {init : List String}
    {x : String} (h : x ∈ init) : x ∈ l.foldl setInsert init := by
  induction l generalizing init with
  | nil => exact h
  | cons y ys ih => exact ih (mem_setInsert_of_mem y h)

theorem mem_foldl_setInsert_of_mem {l : List String} {init : List String}
    {x : String} (h : x ∈ l) : x ∈ l.foldl setInsert init := by
  induction l generalizing init with
  | nil => simp at h
  | cons y ys ih =>
    rcases List.mem_cons.mp h with rfl | h2
    · rw [List.foldl_cons]
      exact mem_foldl_setInsert_of_init (mem_setInsert_self init x)
    · exact ih h2

theorem mem_foldl_setInsert_elim {l : List String} {init : List String}
    {x : String} (h : x ∈ l.foldl setInsert init) : x ∈ init ∨ x ∈ l := by
  induction l generalizing init with
  | nil => exact Or.inl h
  | cons y ys ih =>
    rcases ih h with h2 | h2
    · unfold setInsert at h2
      split at h2
      · exact Or.inl h2
      · rcases List.mem_append.mp h2 with h3 | h3
        · exact Or.inl h3
        · exact Or.inr (List.mem_cons.mpr (Or.inl (List.mem_singleton.mp h3)))
    · exact Or.inr (List.mem_cons_of_mem _ h2)

theorem find?_append_of_isSome {α : Type} {p : α → Bool} {l1 l2 : List α}
    (h : (l1.find? p).isSome) : (l1 ++ l2).find? p = l1.find? p := by
  induction l1 with
  | nil => simp [List.find?_nil] at h
  | cons a l ih =>
    by_cases hp : p a
    · rw [List.cons_append, List.find?_cons_of_pos _ hp,
        List.find?_cons_of_pos _ hp]
    · rw [List.find?_cons_of_neg _ hp] at h
      rw [List.cons_append, List.find?_cons_of_neg _ hp,
        List.find?_cons_of_neg _ hp]
      exact ih h

theorem find?_append_of_none {α : Type} {p : α → Bool} {l1 l2 : List α}
    (h : l1.find? p = none) : (l1 ++ l2).find? p = l2.find? p := by
  induction l1 with
  | nil => simp
  | cons a l ih =>
    by_cases hp : p a
    · rw [List.find?_cons_of_pos _ hp] at h
      simp at h
    · rw [List.find?_cons_of_neg _ hp] at h
      rw [List.cons_append, List.find?_cons_of_neg _ hp]
      exact ih h

theorem find?_map_key {β : Type} (f : (String × β) → (String × β))
    (hf : ∀ q, (f q).1 = q.1) (l : List (String × β)) (k : String) :
    (l.map f).find? (fun q => q.1 = k) =
      (l.find? (fun q => q.1 = k)).map f := by
  induction l with
  | nil => simp
  | cons q rest ih =>
    by_cases hk : q.1 = k
    · rw [List.map_cons, List.find?_cons_of_pos _ (by simp [hf q, hk]),
        List.find?_cons_of_pos _ (by simp [hk])]
      simp
    · rw [List.map_cons, List.find?_cons_of_neg _ (by simp [hf q, hk]),
        List.find?_cons_of_neg _ (by simp [hk])]
      exact ih


theorem classMethodStep_eq (acc : List (String × List String))
    (p : String × Comp) :
    classMethodStep acc p =
      if p.2.component_type = "method" then
        if (pySplit p.1 '.').length ≥ 2 then
          if (pySplit p.1 '.').getLastD "" ≠ "__init__" then
            (if (acc.find? (fun q =>
                q.1 = joinWith "." (pySplit p.1 '.').dropLast)).isSome
              then acc
              else acc ++ [(joinWith "." (pySplit p.1 '.').dropLast, [])]).map
              (fun q => if q.1 = joinWith "." (pySplit p.1 '.').dropLast
                then (q.1, q.2 ++ [p.1]) else q)
          else
            if (acc.find? (fun q =>
                q.1 = joinWith "." (pySplit p.1 '.').dropLast)).isSome
              then acc
              else acc ++ [(joinWith "." (pySplit p.1 '.').dropLast, [])]
        else acc
      else acc := rfl

theorem classMethodStep_mono (acc : List (String × List String))
    (p : String × Comp) (k x : String) (e : String × List String)
    (h1 : acc.find? (fun q => q.1 = k) = some e) (h2 : x ∈ e.2) :
    ∃ e2, (classMethodStep acc p).find? (fun q => q.1 = k) = some e2 ∧
      x ∈ e2.2 := by
  rw [classMethodStep_eq]
  have hens : ∀ l2, ((if (acc.find? (fun q =>
      q.1 = joinWith "." (pySplit p.1 '.').dropLast)).isSome
      then acc else acc ++ l2).find? (fun q => q.1 = k)) = some e := by
    intro l2
    split
    · exact h1
    · rw [find?_append_of_isSome (by rw [h1]; rfl)]
      exact h1
  split
  case isFalse => exact ⟨e, h1, h2⟩
  case isTrue =>
    split
    case isFalse => exact ⟨e, h1, h2⟩
    case isTrue =>
      split
      case isFalse => exact ⟨e, hens _, h2⟩
      case isTrue =>
        rw [find?_map_key _ (fun q => by split <;> rfl) _ k, hens _]
        refine ⟨_, rfl, ?_⟩
        dsimp
        split
        · exact List.mem_append_left _ h2
        · exact h2

theorem classMethodStep_adds (acc : List (String × List String))
    (mid : String) (cm : Comp) (ps : List String) (m : String)
    (hmt : cm.component_type = "method")
    (hps : pySplit mid '.' = ps ++ [m])
    (hpsne : ps ≠ [])
    (hni : m ≠ "__init__") :
    ∃ e2, (classMethodStep acc (mid, cm)).find?
        (fun q => q.1 = joinWith "." ps) = some e2 ∧ mid ∈ e2.2 := by
  rw [classMethodStep_eq]
  dsimp only
  rw [hmt, if_pos rfl, hps]
  rw [if_pos (by
    have := List.length_pos.mpr hpsne
    simp only [List.length_append, List.length_singleton]
    omega)]
  rw [show (ps ++ [m]).getLastD "" = m from by simp]
  rw [show (ps ++ [m]).dropLast = ps from by simp]
  rw [if_pos hni]
  have hens : ∃ e0, ((if (acc.find? (fun q =>
      q.1 = joinWith "." ps)).isSome
      then acc else acc ++ [(joinWith "." ps, [])]).find?
        (fun q => q.1 = joinWith "." ps)) = some e0 ∧
      e0.1 = joinWith "." ps := by
    split
    case isTrue hs =>
      obtain ⟨e0, he0⟩ := Option.isSome_iff_exists.mp hs
      refine ⟨e0, he0, ?_⟩
      have := List.find?_some he0
      simpa using this
    case isFalse hs =>
      rw [find?_append_of_none (Option.not_isSome_iff_eq_none.mp hs)]
      refine ⟨(joinWith "." ps, []), ?_, rfl⟩
      rw [List.find?_cons_of_pos _ (by simp)]
  obtain ⟨e0, hfind0, hkey0⟩ := hens
  rw [find?_map_key _ (fun q => by split <;> rfl) _ _, hfind0]
  refine ⟨_, rfl, ?_⟩
  dsimp
  rw [if_pos hkey0]
  exact List.mem_append_right _ (List.mem_singleton.mpr rfl)


theorem classMethodGroups_fold_mono (l : List (String × Comp)) :
    ∀ (acc : List (String × List String)) (k x : String)
      (e : String × List String),
      acc.find? (fun q => q.1 = k) = some e → x ∈ e.2 →
      ∃ e2, (l.foldl classMethodStep acc).find? (fun q => q.1 = k) = some e2 ∧
        x ∈ e2.2 := by
  induction l with
  | nil => exact fun acc k x e h1 h2 => ⟨e, h1, h2⟩
  | cons p rest ih =>
    intro acc k x e h1 h2
    rw [List.foldl_cons]
    obtain ⟨e2, he2, hx2⟩ := classMethodStep_mono acc p k x e h1 h2
    exact ih _ k x e2 he2 hx2

theorem classMethodGroups_contains (components : List (String × Comp))
    (mid : String) (cm : Comp) (ps : List String) (m : String)
    (hmem : (mid, cm) ∈ components)
    (hmt : cm.component_type = "method")
    (hps : pySplit mid '.' = ps ++ [m])
    (hpsne : ps ≠ [])
    (hni : m ≠ "__init__") :
    ∃ e, (classMethodGroups components).find?
        (fun q => q.1 = joinWith "." ps) = some e ∧ mid ∈ e.2 := by
  obtain ⟨l1, l2, rfl⟩ := List.append_of_mem hmem
  unfold classMethodGroups
  rw [List.foldl_append, List.foldl_cons]
  obtain ⟨e2, he2, hx2⟩ := classMethodStep_adds (l1.foldl classMethodStep [])
    mid cm ps m hmt hps hpsne hni
  exact classMethodGroups_fold_mono l2 _ _ mid e2 he2 hx2

theorem classMethodStep_initfree (acc : List (String × List String))
    (p : String × Comp)
    (h : ∀ e ∈ acc, ∀ x ∈ e.2, (pySplit x '.').getLastD "" ≠ "__init__") :
    ∀ e ∈ classMethodStep acc p, ∀ x ∈ e.2,
      (pySplit x '.').getLastD "" ≠ "__init__" := by
  rw [classMethodStep_eq]
  have hens : ∀ e ∈ (if (acc.find? (fun q =>
      q.1 = joinWith "." (pySplit p.1 '.').dropLast)).isSome
      then acc else acc ++ [(joinWith "." (pySplit p.1 '.').dropLast, [])]),
      ∀ x ∈ e.2, (pySplit x '.').getLastD "" ≠ "__init__" := by
    split
    · exact h
    · intro e he x hx
      rcases List.mem_append.mp he with h2 | h2
      · exact h e h2 x hx
      · rw [List.mem_singleton.mp h2] at hx
        simp at hx
  split
  case isFalse => exact h
  case isTrue =>
    split
    case isFalse => exact h
    case isTrue =>
      split
      case isFalse => exact hens
      case isTrue hlast =>
        intro e he x hx
        obtain ⟨e0, he0, rfl⟩ := List.mem_map.mp he
        by_cases hk : e0.1 = joinWith "." (pySplit p.1 '.').dropLast
        · rw [if_pos hk] at hx
          rcases List.mem_append.mp hx with h2 | h2
          · exact hens e0 he0 x h2
          · rw [List.mem_singleton.mp h2]
            exact hlast
        · rw [if_neg hk] at hx
          exact hens e0 he0 x hx

theorem classMethodGroups_initfree (components : List (String × Comp)) :
    ∀ e ∈ classMethodGroups components, ∀ x ∈ e.2,
      (pySplit x '.').getLastD "" ≠ "__init__" := by
  unfold classMethodGroups
  generalize hacc : ([] : List (String × List String)) = acc
  have hbase : ∀ e ∈ acc, ∀ x ∈ e.2,
      (pySplit x '.').getLastD "" ≠ "__init__" := by
    rw [← hacc]; intro e he; simp at he
  clear hacc
  induction components generalizing acc with
  | nil => exact hbase
  | cons p rest ih =>
    rw [List.foldl_cons]
    exact ih _ (classMethodStep_initfree acc p hbase)

/-- C5: after the class→method augmentation pass, every class component's
dependency set contains the id of each of its methods that exists as a
component — except `__init__`, and no id whose last segment is
`__init__` is ever added by the pass. -/
theorem C5_class_method_dependencies (components : List (String × Comp))
    (cid mid m : String) (c cm : Comp) (ps : List String)
    (hc : (cid, c) ∈ components)
    (hm : (mid, cm) ∈ components)
    (hmt : cm.component_type = "method")
    (hps : pySplit mid '.' = ps ++ [m])
    (hpsne : ps ≠ [])
    (hjoin : joinWith "." ps = cid)
    (hni : m ≠ "__init__") :
    (∃ c2 : Comp, (cid, c2) ∈ add_class_method_dependencies components ∧
      mid ∈ c2.depends_on) ∧
    (∀ p ∈ add_class_method_dependencies components, ∀ d ∈ p.2.depends_on,
      (∃ q ∈ components, q.1 = p.1 ∧ d ∈ q.2.depends_on) ∨
      (pySplit d '.').getLastD "" ≠ "__init__") := by
  constructor
  · obtain ⟨e, hfind, hmid⟩ := classMethodGroups_contains components mid cm
      ps m hm hmt hps hpsne hni
    rw [hjoin] at hfind
    rcases e with ⟨e1, e2⟩
    refine ⟨{ c with depends_on := e2.foldl setInsert c.depends_on }, ?_, ?_⟩
    · unfold add_class_method_dependencies
      have hmm := List.mem_map_of_mem (f := fun p : String × Comp =>
        match (classMethodGroups components).find? (fun q => q.1 = p.1) with
        | some g =>
          (p.1, { p.2 with depends_on := g.2.foldl setInsert p.2.depends_on })
        | none => p) hc
      simpa only [hfind] using hmm
    · exact mem_foldl_setInsert_of_mem hmid
  · intro p hp d hd
    unfold add_class_method_dependencies at hp
    obtain ⟨q, hq, hfq⟩ := List.mem_map.mp hp
    cases hfind : (classMethodGroups components).find?
        (fun r => r.1 = q.1) with
    | none =>
      rw [hfind] at hfq
      subst hfq
      exact Or.inl ⟨q, hq, rfl, hd⟩
    | some e =>
      rcases e with ⟨e1, e2⟩
      rw [hfind] at hfq
      subst hfq
      simp only at hd
      rcases mem_foldl_setInsert_elim hd with h2 | h2
      · exact Or.inl ⟨q, hq, rfl, h2⟩
      · exact Or.inr (classMethodGroups_initfree components (e1, e2)
          (List.mem_of_find?_eq_some hfind) d h2)

/-- Witness for C5 at the scenario-B components. -/
theorem C5_witness :
    ∃ c2 : Comp, ("c.C", c2) ∈ add_class_method_dependencies
      [("c.C", { component_type := "class", depends_on := [] }),
       ("c.C.__init__", { component_type := "method", depends_on := [] }),
       ("c.C.m", { component_type := "method", depends_on := [] })] ∧
      "c.C.m" ∈ c2.depends_on :=
  (C5_class_method_dependencies
    [("c.C", { component_type := "class", depends_on := [] }),
     ("c.C.__init__", { component_type := "method", depends_on := [] }),
     ("c.C.m", { component_type := "method", depends_on := [] })]
    "c.C" "c.C.m" "m"
    { component_type := "class", depends_on := [] }
    { component_type := "method", depends_on := [] }
    ["c", "C"]
    (by decide) (by decide) (by decide) (by decide) (by decide) (by decide)
    (by decide)).1

theorem alook_aset_self (l : List (String × Nat)) (k : String) (v : Nat) :
    alook (aset l k v) k = some v := by
  induction l with
  | nil => simp [aset, alook, List.find?]
  | cons e rest ih =>
    by_cases hk : e.1 = k
    · rcases e with ⟨k0, v0⟩
      simp only [aset]
      rw [if_pos hk]
      simp [alook, List.find?]
    · rcases e with ⟨k0, v0⟩
      simp only [aset]
      rw [if_neg hk]
      simp only [alook, List.find?]
      rw [show (decide (k0 = k)) = false from by simpa using hk]
      exact ih

theorem alook_aset_other (l : List (String × Nat)) (k k2 : String) (v : Nat)
    (h : k2 ≠ k) : alook (aset l k v) k2 = alook l k2 := by
  induction l with
  | nil =>
    simp only [aset, alook, List.find?]
    rw [show (decide (k = k2)) = false from by simp [Ne.symm h]]
  | cons e rest ih =>
    rcases e with ⟨k0, v0⟩
    simp only [aset]
    by_cases hk : k0 = k
    · rw [if_pos hk]
      simp only [alook, List.find?]
      rw [show (decide (k = k2)) = false from by simp [Ne.symm h],
        show (decide (k0 = k2)) = false from by simp [hk ▸ Ne.symm h]]
    · rw [if_neg hk]
      simp only [alook, List.find?]
      by_cases h2 : k0 = k2
      · rw [show (decide (k0 = k2)) = true from by simp [h2]]
      · rw [show (decide (k0 = k2)) = false from by simp [h2]]
        exact ih

theorem Path.snoc {g : Graph} {a b c : String} (hp : Path g a b)
    (he : c ∈ depsOf g b) : Path g a c := by
  induction hp with
  | single h => exact Path.cons h (Path.single he)
  | cons h _ ih => exact Path.cons h (ih he)

theorem mem_univ_of_key {g : Graph} {a : String} (h : a ∈ keysOf g) :
    a ∈ univNodes g := by
  unfold univNodes
  rw [List.mem_dedup]
  exact List.mem_append_left _ h

theorem mem_univ_of_dep {g : Graph} {a b : String} (h : b ∈ depsOf g a) :
    b ∈ univNodes g := by
  unfold univNodes
  rw [List.mem_dedup]
  refine List.mem_append_right _ ?_
  unfold depsOf at h
  cases hf : g.find? (fun p => p.1 = a) with
  | none => rw [hf] at h; simp at h
  | some e =>
    rw [hf] at h
    simp only [Option.map_some', Option.getD_some] at h
    exact List.mem_flatMap.mpr ⟨e, List.mem_of_find?_eq_some hf, h⟩

theorem univNodes_nodup (g : Graph) : (univNodes g).Nodup :=
  List.nodup_dedup _

theorem filter_erase_count {l : List String} (hnd : l.Nodup) :
    ∀ (p : String → Bool) (a : String), a ∈ l → p a = true →
      (l.filter (fun w => decide (w ≠ a) && p w)).length + 1 =
        (l.filter p).length := by
  induction l with
  | nil => intro p a ha; simp at ha
  | cons x rest ih =>
    intro p a ha hpa
    rcases List.mem_cons.mp ha with rfl | ha2
    · have hax : ∀ w ∈ rest, w ≠ a := by
        intro w hw hEq
        subst hEq
        exact (List.nodup_cons.mp hnd).1 hw
      rw [List.filter_cons, List.filter_cons]
      rw [show (decide (a ≠ a) && p a) = false from by simp, hpa]
      rw [if_neg Bool.false_ne_true, if_pos rfl]
      have hre : rest.filter (fun w => decide (w ≠ a) && p w) = rest.filter p := by
        apply List.filter_congr
        intro w hw
        simp [hax w hw]
      rw [hre, List.length_cons]
    · have hxa : x ≠ a := by
        intro hEq
        subst hEq
        exact (List.nodup_cons.mp hnd).1 ha2
      rw [List.filter_cons, List.filter_cons]
      rw [show (decide (x ≠ a) && p x) = p x from by simp [hxa]]
      cases hpx : p x with
      | false =>
        rw [if_neg Bool.false_ne_true, if_neg Bool.false_ne_true]
        exact ih (List.nodup_cons.mp hnd).2 p a ha2 hpa
      | true =>
        rw [if_pos rfl, if_pos rfl, List.length_cons, List.length_cons]
        rw [← ih (List.nodup_cons.mp hnd).2 p a ha2 hpa]

theorem unidx_aset {g : Graph} {st : TarjanSt} {node : String} {v : Nat}
    (huniv : node ∈ univNodes g) (hnone : alook st.index node = none) :
    ∀ (st2 : TarjanSt), st2.index = aset st.index node v →
      unidx g st2 + 1 = unidx g st := by
  intro st2 hidx
  unfold unidx
  rw [hidx]
  have hcong : (univNodes g).filter
      (fun w => (alook (aset st.index node v) w).isNone) =
      (univNodes g).filter
      (fun w => decide (w ≠ node) && (alook st.index w).isNone) := by
    apply List.filter_congr
    intro w _
    by_cases hw : w = node
    · subst hw
      rw [alook_aset_self]
      simp
    · rw [alook_aset_other _ _ _ _ hw]
      simp [hw]
  rw [hcong]
  exact filter_erase_count (univNodes_nodup g) _ node huniv
    (by rw [hnone]; rfl)

theorem scFold_inv (g : Graph) (hac : Acyclic g) (fuel : Nat) (node : String)
    (st0 : TarjanSt)
    (hpre0 : TarjanPre g node st0)
    (hfuel : unidx g st0 < fuel + 1)
    (IH : ∀ (nd : String) (st : TarjanSt), TarjanPre g nd st →
      unidx g st < fuel → TarjanPost g nd st (strongconnect g fuel nd st)) :
    ∀ (deps : List String) (stI : TarjanSt),
      (∀ d ∈ deps, d ∈ depsOf g node) →
      TarjanFoldInv g node st0 stI →
      TarjanFoldInv g node st0 (deps.foldl (fun st succ =>
        if (alook st.index succ).isNone then
          let st := strongconnect g fuel succ st
          let v := min (alookD st.lowlink node) (alookD st.lowlink succ)
          { st with lowlink := aset st.lowlink node v }
        else if succ ∈ st.onstack then
          let v := min (alookD st.lowlink node) (alookD st.index succ)
          { st with lowlink := aset st.lowlink node v }
        else st) stI) := by
  intro deps
  induction deps with
  | nil => exact fun stI _ h => h
  | cons d rest ihd =>
    intro stI hdeps hF
    rw [List.foldl_cons]
    have hd : d ∈ depsOf g node := hdeps d (List.mem_cons_self _ _)
    obtain ⟨hFinv, hFstk, hFsccs, hFidx, hFcnt, hFnew, hFmono, hFun⟩ := hF
    apply ihd _ (fun x hx => hdeps x (List.mem_cons_of_mem _ hx))
    by_cases hidx : (alook stI.index d).isNone
    · rw [if_pos hidx]
      have hpre : TarjanPre g d stI := by
        refine ⟨hFinv, Option.not_isSome_iff_eq_none.mp (by simp [hidx]), ?_,
          mem_univ_of_dep hd⟩
        intro w hw
        rw [hFstk] at hw
        rcases List.mem_cons.mp hw with rfl | hw2
        · exact Path.single hd
        · exact (hpre0.2.2.1 w hw2).snoc hd
      have hfu : unidx g stI < fuel := by omega
      obtain ⟨hPinv, hPstk, hPon, hPsccs, hPmono, hPidx, hPcnt, hPnew, hPun⟩ :=
        IH d stI hpre hfu
      have hlownode : alook (strongconnect g fuel d stI).lowlink node =
          some st0.counter := by
        rw [hPinv.1 node]
        exact hPmono node st0.counter hFidx
      have hlowd : alook (strongconnect g fuel d stI).lowlink d =
          some stI.counter := by
        rw [hPinv.1 d]
        exact hPidx
      have hv : min (alookD (strongconnect g fuel d stI).lowlink node)
          (alookD (strongconnect g fuel d stI).lowlink d) = st0.counter := by
        unfold alookD
        rw [hlownode, hlowd]
        simp only [Option.getD_some]
        omega
      dsimp only
      rw [hv]
      refine ⟨⟨?_, ?_, ?_⟩, ?_, ?_, ?_, ?_, ?_, ?_, ?_⟩
      · intro w
        by_cases hw : w = node
        · rw [hw, alook_aset_self]
          exact (hPmono node st0.counter hFidx).symm
        · rw [alook_aset_other _ _ _ _ hw]
          exact hPinv.1 w
      · exact hPinv.2.1
      · exact hPinv.2.2
      · rw [hPstk]
        exact hFstk
      · rw [hPsccs]
        exact hFsccs
      · exact hPmono node st0.counter hFidx
      · show st0.counter < (strongconnect g fuel d stI).counter
        omega
      · intro w n hn
        rcases hPnew w n hn with h2 | h2
        · exact hFnew w n h2
        · right; omega
      · intro w n hn
        exact hPmono w n (hFmono w n hn)
      · have h9 : unidx g { strongconnect g fuel d stI with
            lowlink := aset (strongconnect g fuel d stI).lowlink node
              st0.counter } = unidx g (strongconnect g fuel d stI) := rfl
        show unidx g { strongconnect g fuel d stI with
            lowlink := aset (strongconnect g fuel d stI).lowlink node
              st0.counter } < unidx g st0
        omega
    · rw [if_neg hidx]
      by_cases hon : d ∈ stI.onstack
      · exfalso
        rw [hFinv.2.2, hFstk] at hon
        rcases List.mem_cons.mp hon with rfl | hon2
        · exact hac d (Path.single hd)
        · exact hac d ((hpre0.2.2.1 d hon2).snoc hd)
      · rw [if_neg hon]
        exact ⟨hFinv, hFstk, hFsccs, hFidx, hFcnt, hFnew, hFmono, hFun⟩

theorem sc_finish (g : Graph) (hac : Acyclic g) (node : String)
    (st st2 : TarjanSt) (hpre : TarjanPre g node st)
    (hF : TarjanFoldInv g node st st2) :
    TarjanPost g node st
      (if alookD st2.lowlink node = alookD st2.index node then
        let pr := popUntil st2.stack node
        { st2 with
          stack := pr.2
          onstack := st2.onstack.filter (fun x => !(pr.1.contains x))
          sccs := if pr.1.length > 1 then st2.sccs ++ [pr.1] else st2.sccs }
      else st2) := by
  obtain ⟨hFinv, hFstk, hFsccs, hFidx, hFcnt, hFnew, hFmono, hFun⟩ := hF
  have hcond : alookD st2.lowlink node = alookD st2.index node := by
    unfold alookD
    rw [hFinv.1 node]
  rw [if_pos hcond]
  have hnotstk : node ∉ st.stack := fun hmem =>
    hac node (hpre.2.2.1 node hmem)
  have hpop : popUntil st2.stack node = ([node], st.stack) := by
    rw [hFstk]
    simp [popUntil]
  rw [hpop]
  have honstk : st2.onstack.filter (fun x => !(([node], st.stack).1.contains x))
      = st.onstack := by
    rw [hFinv.2.2, hFstk]
    have hcontains : ∀ x : String, ([node] : List String).contains x
        = (node == x) := by
      intro x
      by_cases hx : x = node
      · subst hx
        simp
      · simp [hx, Ne.symm hx]
    rw [List.filter_cons]
    rw [show (!(([node] : List String).contains node)) = false from by
      rw [hcontains]; simp]
    rw [if_neg Bool.false_ne_true]
    have hrest : st.stack.filter (fun x => !(([node] : List String).contains x))
        = st.stack := by
      apply List.filter_eq_self.mpr
      intro x hx
      rw [hcontains]
      have hxn : x ≠ node := fun hEq => hnotstk (hEq ▸ hx)
      simp [Ne.symm hxn]
    rw [hrest]
    exact hpre.1.2.2.symm
  have hsccs : (if (([node], st.stack).1.length > 1)
      then st2.sccs ++ [([node], st.stack).1] else st2.sccs) = st.sccs := by
    rw [if_neg (show ¬(([node], st.stack).1.length > 1) from by simp), hFsccs]
  refine ⟨⟨?_, ?_, ?_⟩, ?_, ?_, ?_, ?_, ?_, ?_, ?_, ?_⟩
  · intro w
    exact hFinv.1 w
  · intro w n hn
    exact hFinv.2.1 w n hn
  · show st2.onstack.filter (fun x => !(([node], st.stack).1.contains x))
      = ([node], st.stack).2
    rw [honstk]
    exact hpre.1.2.2
  · rfl
  · exact honstk
  · exact hsccs
  · intro w n hn
    have hwn : w ≠ node := by
      intro hEq
      rw [hEq, hpre.2.1] at hn
      exact Option.noConfusion hn
    apply hFmono
    rw [alook_aset_other _ _ _ _ hwn]
    exact hn
  · exact hFidx
  · exact hFcnt
  · exact hFnew
  · show unidx g ({ st2 with
        stack := ([node], st.stack).2
        onstack := st2.onstack.filter (fun x => !(([node], st.stack).1.contains x))
        sccs := if (([node], st.stack).1.length > 1)
          then st2.sccs ++ [([node], st.stack).1] else st2.sccs }) < unidx g st
    have hsame : unidx g ({ st2 with
        stack := ([node], st.stack).2
        onstack := st2.onstack.filter (fun x => !(([node], st.stack).1.contains x))
        sccs := if (([node], st.stack).1.length > 1)
          then st2.sccs ++ [([node], st.stack).1] else st2.sccs })
        = unidx g st2 := rfl
    omega

theorem strongconnect_acyclic (g : Graph) (hac : Acyclic g) :
    ∀ (fuel : Nat) (node : String) (st : TarjanSt),
      TarjanPre g node st → unidx g st < fuel →
      TarjanPost g node st (strongconnect g fuel node st) := by
  intro fuel
  induction fuel with
  | zero =>
    intro node st _ hfu
    exact absurd hfu (Nat.not_lt_zero _)
  | succ fuel IH =>
    intro node st hpre hfu
    obtain ⟨hinv, hidxnone, hstkpath, hnodeu⟩ := hpre
    have hF1 : TarjanFoldInv g node st
        { counter := st.counter + 1
          index := aset st.index node st.counter
          lowlink := aset st.lowlink node st.counter
          stack := node :: st.stack
          onstack := node :: st.onstack
          sccs := st.sccs } := by
      refine ⟨⟨?_, ?_, ?_⟩, ?_, ?_, ?_, ?_, ?_, ?_, ?_⟩
      · intro w
        by_cases hw : w = node
        · rw [hw]
          show alook (aset st.lowlink node st.counter) node
            = alook (aset st.index node st.counter) node
          rw [alook_aset_self, alook_aset_self]
        · show alook (aset st.lowlink node st.counter) w
            = alook (aset st.index node st.counter) w
          rw [alook_aset_other _ _ _ _ hw, alook_aset_other _ _ _ _ hw]
          exact hinv.1 w
      · intro w n hn
        by_cases hw : w = node
        · rw [hw, alook_aset_self] at hn
          have h2 : st.counter = n := Option.some.inj hn
          show n < st.counter + 1
          omega
        · rw [alook_aset_other _ _ _ _ hw] at hn
          have := hinv.2.1 w n hn
          show n < st.counter + 1
          omega
      · show node :: st.onstack = node :: st.stack
        rw [hinv.2.2]
      · rfl
      · rfl
      · exact alook_aset_self _ _ _
      · exact Nat.lt_succ_self _
      · intro w n hn
        by_cases hw : w = node
        · rw [hw, alook_aset_self] at hn
          right
          have h2 : st.counter = n := Option.some.inj hn
          omega
        · rw [alook_aset_other _ _ _ _ hw] at hn
          exact Or.inl hn
      · intro w n hn
        exact hn
      · have := unidx_aset (v := st.counter) hnodeu hidxnone
          { counter := st.counter + 1
            index := aset st.index node st.counter
            lowlink := aset st.lowlink node st.counter
            stack := node :: st.stack
            onstack := node :: st.onstack
            sccs := st.sccs } rfl
        omega
    have hF2 := scFold_inv g hac fuel node st
      ⟨hinv, hidxnone, hstkpath, hnodeu⟩ hfu IH (depsOf g node)
      { counter := st.counter + 1
        index := aset st.index node st.counter
        lowlink := aset st.lowlink node st.counter
        stack := node :: st.stack
        onstack := node :: st.onstack
        sccs := st.sccs }
      (fun _ hd => hd) hF1
    exact sc_finish g hac node st _ ⟨hinv, hidxnone, hstkpath, hnodeu⟩ hF2

theorem Path.trans {g : Graph} {a b c : String} (h1 : Path g a b) :
    Path g b c → Path g a c := by
  induction h1 with
  | single h => exact fun h2 => Path.cons h h2
  | cons h _ ih => exact fun h2 => Path.cons h (ih h2)

theorem tarjanInit_inv : TarjanInv tarjanInit := by
  refine ⟨fun w => rfl, fun w n h => ?_, rfl⟩
  exact Option.noConfusion h

theorem detect_cycles_acyclic (g : Graph) (hac : Acyclic g) :
    detect_cycles g = [] := by
  have hfold : ∀ (keys : List String) (st : TarjanSt),
      TarjanInv st → st.stack = [] → st.sccs = [] →
      (∀ k ∈ keys, k ∈ univNodes g) →
      (keys.foldl (fun st node =>
          if (alook st.index node).isNone
          then strongconnect g ((univNodes g).length + 1) node st
          else st) st).sccs = [] := by
    intro keys
    induction keys with
    | nil => exact fun st _ _ h3 _ => h3
    | cons k rest ih =>
      intro st h1 h2 h3 hmem
      rw [List.foldl_cons]
      by_cases hidx : (alook st.index k).isNone
      · rw [if_pos hidx]
        have hpre : TarjanPre g k st :=
          ⟨h1, Option.isNone_iff_eq_none.mp hidx,
           by rw [h2]; exact fun w hw => absurd hw (List.not_mem_nil w),
           hmem k (List.mem_cons_self _ _)⟩
        have hfu : unidx g st < (univNodes g).length + 1 := by
          have hle : unidx g st ≤ (univNodes g).length :=
            List.length_filter_le _ _
          omega
        obtain ⟨hPinv, hPstk, _, hPsccs, _, _, _, _, _⟩ :=
          strongconnect_acyclic g hac ((univNodes g).length + 1) k st hpre hfu
        exact ih _ hPinv (by rw [hPstk]; exact h2) (by rw [hPsccs]; exact h3)
          (fun k2 hk2 => hmem k2 (List.mem_cons_of_mem _ hk2))
      · rw [if_neg hidx]
        exact ih st h1 h2 h3 (fun k2 hk2 => hmem k2 (List.mem_cons_of_mem _ hk2))
  show ((keysOf g).foldl (fun st node =>
      if (alook st.index node).isNone
      then strongconnect g ((univNodes g).length + 1) node st
      else st) tarjanInit).sccs = []
  exact hfold (keysOf g) tarjanInit tarjanInit_inv rfl rfl
    (fun k hk => mem_univ_of_key hk)

theorem resolve_cycles_acyclic (g : Graph) (hac : Acyclic g) :
    resolve_cycles g = g := by
  show (if (detect_cycles g).isEmpty then g
    else (detect_cycles g).foldl breakCycle g) = g
  rw [detect_cycles_acyclic g hac]
  rfl

theorem length_filter_mono {α : Type} (p q : α → Bool) :
    ∀ (l : List α), (∀ a ∈ l, p a = true → q a = true) →
      (l.filter p).length ≤ (l.filter q).length := by
  intro l
  induction l with
  | nil => intro _; simp
  | cons x xs ih =>
    intro h
    have hrest := ih (fun a ha hpa => h a (List.mem_cons_of_mem _ ha) hpa)
    cases hpx : p x with
    | true =>
      have hqx := h x (List.mem_cons_self _ _) hpx
      rw [List.filter_cons, List.filter_cons, hpx, hqx, if_pos rfl, if_pos rfl]
      exact Nat.succ_le_succ hrest
    | false =>
      rw [List.filter_cons, List.filter_cons, hpx, if_neg Bool.false_ne_true]
      cases hqx : q x with
      | false => rw [if_neg Bool.false_ne_true]; exact hrest
      | true => rw [if_pos rfl]; exact Nat.le_succ_of_le hrest

theorem dfsUnvis_le_of_superset {ag : Graph} {s1 s2 : DfsSt}
    (h : ∀ w ∈ s1.visited, w ∈ s2.visited) :
    dfsUnvis ag s2 ≤ dfsUnvis ag s1 := by
  unfold dfsUnvis
  apply length_filter_mono
  intro a _ ha
  have ha2 : a ∉ s2.visited := of_decide_eq_true ha
  exact decide_eq_true (fun hm => ha2 (h a hm))

theorem dfsUnvis_insert {ag : Graph} {s : DfsSt} {node : String}
    (huniv : node ∈ univNodes ag) (hnv : node ∉ s.visited) :
    ∀ (s2 : DfsSt), s2.visited = node :: s.visited →
      dfsUnvis ag s2 + 1 = dfsUnvis ag s := by
  intro s2 hvis
  unfold dfsUnvis
  rw [hvis]
  have hcong : (univNodes ag).filter (fun w => decide (w ∉ node :: s.visited))
      = (univNodes ag).filter
        (fun w => decide (w ≠ node) && decide (w ∉ s.visited)) := by
    apply List.filter_congr
    intro w _
    by_cases hw : w = node
    · subst hw
      simp
    · simp [hw]
  rw [hcong]
  exact filter_erase_count (univNodes_nodup ag) _ node huniv
    (decide_eq_true hnv)

theorem mem_insertSorted (x a : String) :
    ∀ (l : List String), a ∈ insertSorted x l ↔ a = x ∨ a ∈ l := by
  intro l
  induction l with
  | nil => simp [insertSorted]
  | cons y ys ih =>
    show a ∈ (if strLeB x y then x :: y :: ys else y :: insertSorted x ys) ↔ _
    by_cases h : strLeB x y
    · rw [if_pos h]
      exact List.mem_cons
    · rw [if_neg h, List.mem_cons, ih, List.mem_cons]
      tauto

theorem mem_sortStrings (a : String) :
    ∀ (l : List String), a ∈ sortStrings l ↔ a ∈ l := by
  intro l
  induction l with
  | nil => simp [sortStrings]
  | cons x xs ih =>
    show a ∈ insertSorted x (sortStrings xs) ↔ _
    rw [mem_insertSorted, ih, List.mem_cons]

theorem split_concat {α : Type} (res l1 l2 : List α) (node a : α)
    (h : res ++ [node] = l1 ++ a :: l2) :
    (l1 = res ∧ a = node ∧ l2 = []) ∨
      ∃ l2b, l2 = l2b ++ [node] ∧ res = l1 ++ a :: l2b := by
  rcases List.eq_nil_or_concat l2 with h2 | ⟨l2b, b, h2⟩
  · subst h2
    obtain ⟨he1, he2⟩ := List.append_inj' h rfl
    exact Or.inl ⟨he1.symm, ((List.cons.inj he2).1).symm, rfl⟩
  · subst h2
    have hmv : res ++ [node] = (l1 ++ a :: l2b) ++ [b] := by
      rw [h]
      simp [List.append_assoc]
    obtain ⟨he1, he2⟩ := List.append_inj' hmv rfl
    have hb : node = b := (List.cons.inj he2).1
    exact Or.inr ⟨l2b, by rw [hb]; exact List.concat_eq_append _ _, he1⟩

theorem orderedRes_concat {ag : Graph} {res : List String} {node : String}
    (hord : OrderedRes ag res)
    (hdeps : ∀ b ∈ depsOf ag node, b ∈ res) :
    OrderedRes ag (res ++ [node]) := by
  intro l1 a l2 h b hb
  rcases split_concat res l1 l2 node a h with ⟨hl1, ha, _⟩ | ⟨l2b, _, hres⟩
  · subst hl1
    subst ha
    exact hdeps b hb
  · exact hord l1 a l2b hres b hb

theorem nodup_concat {res : List String} {node : String}
    (hnd : res.Nodup) (hnm : node ∉ res) : (res ++ [node]).Nodup := by
  rw [List.nodup_append]
  refine ⟨hnd, List.nodup_singleton _, ?_⟩
  intro a ha hb
  rw [List.mem_singleton] at hb
  subst hb
  exact hnm ha

theorem deps_keys {ag : Graph}
    (hclosed : ∀ p ∈ ag, ∀ d ∈ p.2, d ∈ keysOf ag)
    {node d : String} (hd : d ∈ depsOf ag node) : d ∈ keysOf ag := by
  unfold depsOf at hd
  cases hfind : ag.find? (fun p => p.1 = node) with
  | none =>
    rw [hfind] at hd
    simp at hd
  | some p =>
    rw [hfind] at hd
    simp only [Option.map_some', Option.getD_some] at hd
    exact hclosed p (List.mem_of_find?_eq_some hfind) d hd

theorem key_of_deps {g : Graph} {x y : String} (h : y ∈ depsOf g x) :
    x ∈ keysOf g := by
  unfold depsOf at h
  cases hfind : g.find? (fun p => p.1 = x) with
  | none =>
    rw [hfind] at h
    simp at h
  | some p =>
    have hpx : p.1 = x := by simpa using List.find?_some hfind
    have hpm : p ∈ g := List.mem_of_find?_eq_some hfind
    rw [← hpx]
    exact List.mem_map_of_mem Prod.fst hpm

theorem dfsFold_spec (ag : Graph) (hac : Acyclic ag)
    (hclosed : ∀ p ∈ ag, ∀ d ∈ p.2, d ∈ keysOf ag)
    (fuel : Nat) (node : String) (gray : List String)
    (hgray : ∀ a ∈ gray, Path ag a node)
    (IH : ∀ (nd : String) (gr : List String) (s : DfsSt),
      DfsInv ag gr s → nd ∈ keysOf ag → (∀ a ∈ gr, Path ag a nd) →
      dfsUnvis ag s < fuel →
      DfsInv ag gr (dfsVisit ag fuel nd s) ∧
      (∃ t, (dfsVisit ag fuel nd s).result = s.result ++ t) ∧
      nd ∈ (dfsVisit ag fuel nd s).visited ∧
      (∀ w ∈ s.visited, w ∈ (dfsVisit ag fuel nd s).visited) ∧
      (∀ w ∈ (dfsVisit ag fuel nd s).visited,
        w ∈ s.visited ∨ w ∈ keysOf ag)) :
    ∀ (deps : List String) (acc : DfsSt),
      (∀ d ∈ deps, d ∈ depsOf ag node) →
      DfsInv ag (node :: gray) acc →
      dfsUnvis ag acc < fuel →
      DfsInv ag (node :: gray)
        (deps.foldl (fun acc d => dfsVisit ag fuel d acc) acc) ∧
      (∃ t, (deps.foldl (fun acc d => dfsVisit ag fuel d acc) acc).result
        = acc.result ++ t) ∧
      (∀ d ∈ deps,
        d ∈ (deps.foldl (fun acc d => dfsVisit ag fuel d acc) acc).visited) ∧
      (∀ w ∈ acc.visited,
        w ∈ (deps.foldl (fun acc d => dfsVisit ag fuel d acc) acc).visited) ∧
      (∀ w ∈ (deps.foldl (fun acc d => dfsVisit ag fuel d acc) acc).visited,
        w ∈ acc.visited ∨ w ∈ keysOf ag) ∧
      dfsUnvis ag (deps.foldl (fun acc d => dfsVisit ag fuel d acc) acc)
        ≤ dfsUnvis ag acc := by
  intro deps
  induction deps with
  | nil =>
    intro acc _ hI _
    refine ⟨hI, ⟨[], by simp⟩, ?_, fun w hw => hw, fun w hw => Or.inl hw,
      Nat.le_refl _⟩
    intro d hd
    exact absurd hd (List.not_mem_nil d)
  | cons d rest ihd =>
    intro acc hdeps hI hfu
    rw [List.foldl_cons]
    have hd : d ∈ depsOf ag node := hdeps d (List.mem_cons_self _ _)
    have hgr : ∀ a ∈ node :: gray, Path ag a d := by
      intro a ha
      rcases List.mem_cons.mp ha with rfl | ha2
      · exact Path.single hd
      · exact (hgray a ha2).snoc hd
    obtain ⟨hP1, ⟨t1, hPt⟩, hPd, hPmono, hPkeys⟩ :=
      IH d (node :: gray) acc hI (deps_keys hclosed hd) hgr hfu
    have hfu2 : dfsUnvis ag (dfsVisit ag fuel d acc) < fuel :=
      Nat.lt_of_le_of_lt (dfsUnvis_le_of_superset hPmono) hfu
    obtain ⟨hQ1, ⟨t2, hQt⟩, hQd, hQmono, hQkeys, hQun⟩ :=
      ihd (dfsVisit ag fuel d acc)
        (fun x hx => hdeps x (List.mem_cons_of_mem _ hx)) hP1 hfu2
    refine ⟨hQ1, ⟨t1 ++ t2, by rw [hQt, hPt, List.append_assoc]⟩, ?_, ?_, ?_, ?_⟩
    · intro e he
      rcases List.mem_cons.mp he with rfl | he2
      · exact hQmono e hPd
      · exact hQd e he2
    · intro w hw
      exact hQmono w (hPmono w hw)
    · intro w hw
      rcases hQkeys w hw with h2 | h2
      · exact hPkeys w h2
      · exact Or.inr h2
    · exact Nat.le_trans hQun (dfsUnvis_le_of_superset hPmono)

theorem dfsVisit_spec (ag : Graph) (hac : Acyclic ag)
    (hclosed : ∀ p ∈ ag, ∀ d ∈ p.2, d ∈ keysOf ag) :
    ∀ (fuel : Nat) (node : String) (gray : List String) (s : DfsSt),
      DfsInv ag gray s → node ∈ keysOf ag →
      (∀ a ∈ gray, Path ag a node) →
      dfsUnvis ag s < fuel →
      DfsInv ag gray (dfsVisit ag fuel node s) ∧
      (∃ t, (dfsVisit ag fuel node s).result = s.result ++ t) ∧
      node ∈ (dfsVisit ag fuel node s).visited ∧
      (∀ w ∈ s.visited, w ∈ (dfsVisit ag fuel node s).visited) ∧
      (∀ w ∈ (dfsVisit ag fuel node s).visited,
        w ∈ s.visited ∨ w ∈ keysOf ag) := by
  intro fuel
  induction fuel with
  | zero =>
    intro node gray s _ _ _ hfu
    exact absurd hfu (Nat.not_lt_zero _)
  | succ fuel IH =>
    intro node gray s hI hkey hgray hfu
    have heq : dfsVisit ag (fuel + 1) node s =
        (if node ∈ s.visited then s
         else
           let s1 : DfsSt := { s with visited := node :: s.visited }
           let s2 := (sortStrings (depsOf ag node)).foldl
             (fun acc d => dfsVisit ag fuel d acc) s1
           { s2 with result := s2.result ++ [node] }) := rfl
    by_cases hv : node ∈ s.visited
    · rw [heq, if_pos hv]
      exact ⟨hI, ⟨[], by simp⟩, hv, fun w hw => hw, fun w hw => Or.inl hw⟩
    · rw [heq, if_neg hv]
      obtain ⟨hmem, hnd, hng, hord⟩ := hI
      have hI1 : DfsInv ag (node :: gray)
          { s with visited := node :: s.visited } := by
        refine ⟨?_, hnd, ?_, hord⟩
        · intro w
          constructor
          · intro hw
            rcases List.mem_cons.mp hw with rfl | hw2
            · exact Or.inl (List.mem_cons_self _ _)
            · rcases (hmem w).mp hw2 with h2 | h2
              · exact Or.inl (List.mem_cons_of_mem _ h2)
              · exact Or.inr h2
          · intro hw
            rcases hw with hw2 | hw2
            · rcases List.mem_cons.mp hw2 with rfl | hw3
              · exact List.mem_cons_self _ _
              · exact List.mem_cons_of_mem _ ((hmem w).mpr (Or.inl hw3))
            · exact List.mem_cons_of_mem _ ((hmem w).mpr (Or.inr hw2))
        · intro w hw hwg
          rcases List.mem_cons.mp hwg with rfl | hwg2
          · exact hv ((hmem w).mpr (Or.inr hw))
          · exact hng w hw hwg2
      have huniv : node ∈ univNodes ag := mem_univ_of_key hkey
      have hins := dfsUnvis_insert huniv hv
        { s with visited := node :: s.visited } rfl
      have hfu1 : dfsUnvis ag { s with visited := node :: s.visited }
          < fuel := by omega
      obtain ⟨hF1, ⟨t, hFt⟩, hFdeps, hFmono, hFkeys, hFun⟩ :=
        dfsFold_spec ag hac hclosed fuel node gray hgray IH
          (sortStrings (depsOf ag node)) { s with visited := node :: s.visited }
          (fun d hd => (mem_sortStrings d _).mp hd) hI1 hfu1
      obtain ⟨hGmem, hGnd, hGng, hGord⟩ := hF1
      have hnodeng : node ∉ gray := fun h2 => hac node (hgray node h2)
      have hnoderes : node ∉ ((sortStrings (depsOf ag node)).foldl
          (fun acc d => dfsVisit ag fuel d acc)
          { s with visited := node :: s.visited }).result :=
        fun h2 => hGng node h2 (List.mem_cons_self _ _)
      have hdepres : ∀ b ∈ depsOf ag node,
          b ∈ ((sortStrings (depsOf ag node)).foldl
            (fun acc d => dfsVisit ag fuel d acc)
            { s with visited := node :: s.visited }).result := by
        intro b hb
        have hbv := hFdeps b ((mem_sortStrings b _).mpr hb)
        rcases (hGmem b).mp hbv with h2 | h2
        · rcases List.mem_cons.mp h2 with rfl | h3
          · exact absurd (Path.single hb) (hac b)
          · exact absurd ((hgray b h3).trans (Path.single hb)) (hac b)
        · exact h2
      refine ⟨⟨?_, ?_, ?_, ?_⟩, ⟨t ++ [node], ?_⟩, ?_, ?_, ?_⟩
      · intro w
        constructor
        · intro hw
          rcases (hGmem w).mp hw with h2 | h2
          · rcases List.mem_cons.mp h2 with rfl | h3
            · exact Or.inr (List.mem_append_right _ (List.mem_singleton.mpr rfl))
            · exact Or.inl h3
          · exact Or.inr (List.mem_append_left _ h2)
        · intro hw
          rcases hw with h2 | h2
          · exact (hGmem w).mpr (Or.inl (List.mem_cons_of_mem _ h2))
          · rcases List.mem_append.mp h2 with h3 | h3
            · exact (hGmem w).mpr (Or.inr h3)
            · rw [List.mem_singleton] at h3
              subst h3
              exact (hGmem w).mpr (Or.inl (List.mem_cons_self _ _))
      · exact nodup_concat hGnd hnoderes
      · intro w hw
        rcases List.mem_append.mp hw with h2 | h2
        · exact fun h3 => hGng w h2 (List.mem_cons_of_mem _ h3)
        · rw [List.mem_singleton] at h2
          subst h2
          exact hnodeng
      · exact orderedRes_concat hGord hdepres
      · show ((sortStrings (depsOf ag node)).foldl
            (fun acc d => dfsVisit ag fuel d acc)
            { s with visited := node :: s.visited }).result ++ [node]
          = s.result ++ (t ++ [node])
        rw [hFt]
        show ({ s with visited := node :: s.visited } : DfsSt).result ++ t
            ++ [node] = s.result ++ (t ++ [node])
        rw [List.append_assoc]
      · exact hFmono node (List.mem_cons_self _ _)
      · intro w hw
        exact hFmono w (List.mem_cons_of_mem _ hw)
      · intro w hw
        rcases hFkeys w hw with h2 | h2
        · rcases List.mem_cons.mp h2 with rfl | h3
          · exact Or.inr hkey
          · exact Or.inl h3
        · exact Or.inr h2

theorem dfsTop1 (ag : Graph) (hac : Acyclic ag)
    (hclosed : ∀ p ∈ ag, ∀ d ∈ p.2, d ∈ keysOf ag) :
    ∀ (nodes : List String) (acc : DfsSt),
      (∀ n ∈ nodes, n ∈ keysOf ag) →
      DfsInv ag [] acc →
      DfsInv ag [] (nodes.foldl
        (fun acc r => dfsVisit ag ((univNodes ag).length + 1) r acc) acc) ∧
      (∀ n ∈ nodes, n ∈ (nodes.foldl
        (fun acc r => dfsVisit ag ((univNodes ag).length + 1) r acc)
        acc).visited) ∧
      (∀ w ∈ acc.visited, w ∈ (nodes.foldl
        (fun acc r => dfsVisit ag ((univNodes ag).length + 1) r acc)
        acc).visited) ∧
      (∀ w ∈ (nodes.foldl
        (fun acc r => dfsVisit ag ((univNodes ag).length + 1) r acc)
        acc).visited, w ∈ acc.visited ∨ w ∈ keysOf ag) := by
  intro nodes
  induction nodes with
  | nil =>
    intro acc _ hI
    refine ⟨hI, ?_, fun w hw => hw, fun w hw => Or.inl hw⟩
    intro n hn
    exact absurd hn (List.not_mem_nil n)
  | cons r rest ih =>
    intro acc hmem hI
    rw [List.foldl_cons]
    have hfu : dfsUnvis ag acc < (univNodes ag).length + 1 := by
      have hle : dfsUnvis ag acc ≤ (univNodes ag).length :=
        List.length_filter_le _ _
      omega
    obtain ⟨hP1, _, hPr, hPmono, hPkeys⟩ :=
      dfsVisit_spec ag hac hclosed ((univNodes ag).length + 1) r [] acc hI
        (hmem r (List.mem_cons_self _ _))
        (fun a ha => absurd ha (List.not_mem_nil a)) hfu
    obtain ⟨hQ1, hQr, hQmono, hQkeys⟩ :=
      ih (dfsVisit ag ((univNodes ag).length + 1) r acc)
        (fun n hn => hmem n (List.mem_cons_of_mem _ hn)) hP1
    refine ⟨hQ1, ?_, ?_, ?_⟩
    · intro n hn
      rcases List.mem_cons.mp hn with rfl | hn2
      · exact hQmono n hPr
      · exact hQr n hn2
    · intro w hw
      exact hQmono w (hPmono w hw)
    · intro w hw
      rcases hQkeys w hw with h2 | h2
      · exact hPkeys w h2
      · exact Or.inr h2

theorem dfsTop2 (ag : Graph) (hac : Acyclic ag)
    (hclosed : ∀ p ∈ ag, ∀ d ∈ p.2, d ∈ keysOf ag) :
    ∀ (nodes : List String) (acc : DfsSt),
      (∀ n ∈ nodes, n ∈ keysOf ag) →
      DfsInv ag [] acc →
      DfsInv ag [] (nodes.foldl
        (fun acc n => if n ∈ acc.visited then acc
          else dfsVisit ag ((univNodes ag).length + 1) n acc) acc) ∧
      (∀ n ∈ nodes, n ∈ (nodes.foldl
        (fun acc n => if n ∈ acc.visited then acc
          else dfsVisit ag ((univNodes ag).length + 1) n acc) acc).visited) ∧
      (∀ w ∈ acc.visited, w ∈ (nodes.foldl
        (fun acc n => if n ∈ acc.visited then acc
          else dfsVisit ag ((univNodes ag).length + 1) n acc) acc).visited) ∧
      (∀ w ∈ (nodes.foldl
        (fun acc n => if n ∈ acc.visited then acc
          else dfsVisit ag ((univNodes ag).length + 1) n acc) acc).visited,
        w ∈ acc.visited ∨ w ∈ keysOf ag) := by
  intro nodes
  induction nodes with
  | nil =>
    intro acc _ hI
    refine ⟨hI, ?_, fun w hw => hw, fun w hw => Or.inl hw⟩
    intro n hn
    exact absurd hn (List.not_mem_nil n)
  | cons r rest ih =>
    intro acc hmem hI
    rw [List.foldl_cons]
    by_cases hv : r ∈ acc.visited
    · rw [if_pos hv]
      obtain ⟨hQ1, hQr, hQmono, hQkeys⟩ :=
        ih acc (fun n hn => hmem n (List.mem_cons_of_mem _ hn)) hI
      refine ⟨hQ1, ?_, hQmono, hQkeys⟩
      intro n hn
      rcases List.mem_cons.mp hn with rfl | hn2
      · exact hQmono n hv
      · exact hQr n hn2
    · rw [if_neg hv]
      have hfu : dfsUnvis ag acc < (univNodes ag).length + 1 := by
        have hle : dfsUnvis ag acc ≤ (univNodes ag).length :=
          List.length_filter_le _ _
        omega
      obtain ⟨hP1, _, hPr, hPmono, hPkeys⟩ :=
        dfsVisit_spec ag hac hclosed ((univNodes ag).length + 1) r [] acc hI
          (hmem r (List.mem_cons_self _ _))
          (fun a ha => absurd ha (List.not_mem_nil a)) hfu
      obtain ⟨hQ1, hQr, hQmono, hQkeys⟩ :=
        ih (dfsVisit ag ((univNodes ag).length + 1) r acc)
          (fun n hn => hmem n (List.mem_cons_of_mem _ hn)) hP1
      refine ⟨hQ1, ?_, ?_, ?_⟩
      · intro n hn
        rcases List.mem_cons.mp hn with rfl | hn2
        · exact hQmono n hPr
        · exact hQr n hn2
      · intro w hw
        exact hQmono w (hPmono w hw)
      · intro w hw
        rcases hQkeys w hw with h2 | h2
        · exact hPkeys w h2
        · exact Or.inr h2

theorem dfsInv_init (ag : Graph) : DfsInv ag [] ⟨[], []⟩ := by
  refine ⟨fun w => ?_, List.nodup_nil, fun w hw => absurd hw (List.not_mem_nil w),
    fun l1 a l2 h => ?_⟩
  · simp
  · exact absurd h.symm (by simp)

theorem dfs_body_spec (ag : Graph) (hac : Acyclic ag)
    (hnd : (keysOf ag).Nodup)
    (hclosed : ∀ p ∈ ag, ∀ d ∈ p.2, d ∈ keysOf ag)
    (roots : List String) (hroots : ∀ n ∈ roots, n ∈ keysOf ag)
    (res : List String)
    (hres : res =
      (if ((sortStrings roots).foldl
            (fun acc r => dfsVisit ag ((univNodes ag).length + 1) r acc)
            ⟨[], []⟩).result.length ≠ (keysOf ag).length then
        (sortStrings (keysOf ag)).foldl
          (fun acc n => if n ∈ acc.visited then acc
            else dfsVisit ag ((univNodes ag).length + 1) n acc)
          ((sortStrings roots).foldl
            (fun acc r => dfsVisit ag ((univNodes ag).length + 1) r acc)
            ⟨[], []⟩)
      else
        (sortStrings roots).foldl
          (fun acc r => dfsVisit ag ((univNodes ag).length + 1) r acc)
          ⟨[], []⟩).result) :
    OrderedRes ag res ∧ res.Nodup ∧ (∀ k ∈ keysOf ag, k ∈ res) := by
  obtain ⟨hS1, _, _, hSkeys⟩ :=
    dfsTop1 ag hac hclosed (sortStrings roots) ⟨[], []⟩
      (fun n hn => hroots n ((mem_sortStrings n _).mp hn)) (dfsInv_init ag)
  by_cases hc : ((sortStrings roots).foldl
      (fun acc r => dfsVisit ag ((univNodes ag).length + 1) r acc)
      ⟨[], []⟩).result.length ≠ (keysOf ag).length
  · rw [if_pos hc] at hres
    obtain ⟨hT1, hTk, _, _⟩ :=
      dfsTop2 ag hac hclosed (sortStrings (keysOf ag))
        ((sortStrings roots).foldl
          (fun acc r => dfsVisit ag ((univNodes ag).length + 1) r acc)
          ⟨[], []⟩)
        (fun n hn => (mem_sortStrings n _).mp hn) hS1
    subst hres
    refine ⟨hT1.2.2.2, hT1.2.1, ?_⟩
    intro k hk
    have hkv := hTk k ((mem_sortStrings k _).mpr hk)
    rcases (hT1.1 k).mp hkv with h2 | h2
    · exact absurd h2 (List.not_mem_nil k)
    · exact h2
  · rw [if_neg hc] at hres
    subst hres
    push_neg at hc
    refine ⟨hS1.2.2.2, hS1.2.1, ?_⟩
    have hsub : ∀ w ∈ ((sortStrings roots).foldl
        (fun acc r => dfsVisit ag ((univNodes ag).length + 1) r acc)
        ⟨[], []⟩).result, w ∈ keysOf ag := by
      intro w hw
      have hwv := (hS1.1 w).mpr (Or.inr hw)
      rcases hSkeys w hwv with h2 | h2
      · exact absurd h2 (List.not_mem_nil w)
      · exact h2
    have hfin : ((sortStrings roots).foldl
        (fun acc r => dfsVisit ag ((univNodes ag).length + 1) r acc)
        ⟨[], []⟩).result.toFinset = (keysOf ag).toFinset := by
      apply Finset.eq_of_subset_of_card_le
      · intro a ha
        rw [List.mem_toFinset] at ha
        rw [List.mem_toFinset]
        exact hsub a ha
      · rw [List.toFinset_card_of_nodup hnd, List.toFinset_card_of_nodup hS1.2.1]
        omega
    intro k hk
    have : k ∈ ((sortStrings roots).foldl
        (fun acc r => dfsVisit ag ((univNodes ag).length + 1) r acc)
        ⟨[], []⟩).result.toFinset := by
      rw [hfin, List.mem_toFinset]
      exact hk
    rw [List.mem_toFinset] at this
    exact this

theorem dfs_result_spec (g : Graph) (hac : Acyclic g)
    (hnd : (keysOf g).Nodup)
    (hclosed : ∀ p ∈ g, ∀ d ∈ p.2, d ∈ keysOf g) :
    OrderedRes g (dependency_first_dfs g) ∧
    (dependency_first_dfs g).Nodup ∧
    (∀ k ∈ keysOf g, k ∈ dependency_first_dfs g) := by
  have hag : resolve_cycles g = g := resolve_cycles_acyclic g hac
  have hroots : ∀ n ∈ (if ((keysOf g).filter
        (fun n => !(g.any (fun p => p.2.contains n)))).isEmpty
      then (keysOf g).take 1
      else (keysOf g).filter (fun n => !(g.any (fun p => p.2.contains n)))),
      n ∈ keysOf g := by
    intro n hn
    by_cases he : ((keysOf g).filter
        (fun n => !(g.any (fun p => p.2.contains n)))).isEmpty
    · rw [if_pos he] at hn
      exact List.take_subset _ _ hn
    · rw [if_neg he] at hn
      exact List.mem_of_mem_filter hn
  apply dfs_body_spec g hac hnd hclosed _ hroots
  show dependency_first_dfs g = _
  unfold dependency_first_dfs
  rw [hag]

theorem firstPosOf_lt_length {α : Type} [DecidableEq α] {a : α} :
    ∀ {l : List α}, a ∈ l → firstPosOf l a < l.length := by
  intro l
  induction l with
  | nil => intro h; exact absurd h (List.not_mem_nil a)
  | cons x xs ih =>
    intro h
    show (if x = a then 0 else firstPosOf xs a + 1) < xs.length + 1
    by_cases hx : x = a
    · rw [if_pos hx]
      omega
    · rw [if_neg hx]
      have hmem : a ∈ xs := by
        rcases List.mem_cons.mp h with rfl | h2
        · exact absurd rfl hx
        · exact h2
      have := ih hmem
      omega

theorem firstPosOf_append_left {α : Type} [DecidableEq α] {a : α} :
    ∀ {l1 : List α} (l2 : List α), a ∈ l1 →
      firstPosOf (l1 ++ l2) a = firstPosOf l1 a := by
  intro l1
  induction l1 with
  | nil => intro l2 h; exact absurd h (List.not_mem_nil a)
  | cons x xs ih =>
    intro l2 h
    show (if x = a then 0 else firstPosOf (xs ++ l2) a + 1)
      = (if x = a then 0 else firstPosOf xs a + 1)
    by_cases hx : x = a
    · rw [if_pos hx, if_pos hx]
    · rw [if_neg hx, if_neg hx]
      have hmem : a ∈ xs := by
        rcases List.mem_cons.mp h with rfl | h2
        · exact absurd rfl hx
        · exact h2
      rw [ih l2 hmem]

theorem firstPosOf_append_right {α : Type} [DecidableEq α] {a : α} :
    ∀ {l1 : List α} (l2 : List α), a ∉ l1 →
      firstPosOf (l1 ++ l2) a = l1.length + firstPosOf l2 a := by
  intro l1
  induction l1 with
  | nil => intro l2 _; simp
  | cons x xs ih =>
    intro l2 h
    show (if x = a then 0 else firstPosOf (xs ++ l2) a + 1)
      = xs.length + 1 + firstPosOf l2 a
    have hx : x ≠ a := fun h2 => h (h2 ▸ List.mem_cons_self _ _)
    rw [if_neg hx, ih l2 (fun h2 => h (List.mem_cons_of_mem _ h2))]
    omega

theorem mainStep_id (comps : List (String × Comp)) (ow : Bool) (z : String) :
    ∀ e ∈ mainStep comps ow z, eventId e = z := by
  intro e he
  unfold mainStep at he
  rcases hfind : comps.find? (fun p => p.1 = z) with _ | p <;> rw [hfind] at he
  · rw [List.mem_singleton] at he
    subst he
    rfl
  · dsimp only at he
    split at he
    · rw [List.mem_singleton] at he
      subst he
      rfl
    · split at he
      · split at he
        · rw [List.mem_singleton] at he
          subst he
          rfl
        · rcases List.mem_cons.mp he with rfl | he2
          · rfl
          · rw [List.mem_singleton] at he2
            subst he2
            rfl
      · split at he
        · rw [List.mem_singleton] at he
          subst he
          rfl
        · rcases List.mem_cons.mp he with rfl | he2
          · rfl
          · rw [List.mem_singleton] at he2
            subst he2
            rfl

theorem gXY_edge {a b : String} (h : b ∈ depsOf gXY a) :
    a = "x" ∧ b = "y" := by
  by_cases hax : a = "x"
  · subst hax
    have hd : depsOf gXY "x" = ["y"] := by decide
    rw [hd, List.mem_singleton] at h
    exact ⟨rfl, h⟩
  · by_cases hay : a = "y"
    · subst hay
      have hd : depsOf gXY "y" = [] := by decide
      rw [hd] at h
      exact absurd h (List.not_mem_nil b)
    · have hd : gXY.find? (fun p => p.1 = a) = none := by
        show List.find? (fun p => p.1 = a) [("x", ["y"]), ("y", [])] = none
        rw [List.find?_cons_of_neg _ (by simpa using Ne.symm hax),
          List.find?_cons_of_neg _ (by simpa using Ne.symm hay)]
        rfl
      unfold depsOf at h
      rw [hd] at h
      exact absurd h (List.not_mem_nil b)

theorem acyclic_gXY : Acyclic gXY := by
  intro a hp
  have hxy : ∀ c d : String, Path gXY c d → c = "x" ∧ d = "y" := by
    intro c d hcd
    induction hcd with
    | single h => exact gXY_edge h
    | cons h _ ih =>
      have h1 := gXY_edge h
      have h2 := ih
      rw [h1.2] at h2
      exact absurd h2.1.symm (by decide)
  have := hxy a a hp
  have hax : a = "x" := this.1
  have hay : a = "y" := this.2
  rw [hax] at hay
  exact absurd hay (by decide)

/-- C3: on an acyclic dependency graph with duplicate-free keys whose
dependencies are all components (as `build_graph_from_components`
guarantees), every dependency `y` of a component `x` is placed by
`dependency_first_dfs` strictly before `x` in the output order; and in
the sequential main loop over that order, when `y`'s iteration emits a
write event and `x`'s iteration emits a start event, `y`'s documentation
write occurs strictly before `x`'s processing starts. -/
theorem C3_dependency_first_order (g : Graph)
    (comps : List (String × Comp)) (ow : Bool) (x y : String)
    (hac : Acyclic g) (hnd : (keysOf g).Nodup)
    (hclosed : ∀ p ∈ g, ∀ d ∈ p.2, d ∈ keysOf g)
    (hxy : y ∈ depsOf g x)
    (hwr : MainEvent.write y ∈ mainStep comps ow y)
    (hst : MainEvent.start x ∈ mainStep comps ow x) :
    (∃ l1 l2, dependency_first_dfs g = l1 ++ x :: l2 ∧ y ∈ l1 ∧ x ∉ l1) ∧
    firstPosOf (mainLoopTrace comps ow (dependency_first_dfs g))
        (MainEvent.write y) <
      firstPosOf (mainLoopTrace comps ow (dependency_first_dfs g))
        (MainEvent.start x) := by
  obtain ⟨hord, hndres, hcomp⟩ := dfs_result_spec g hac hnd hclosed
  have hxk : x ∈ keysOf g := key_of_deps hxy
  obtain ⟨l1, l2, hsplit⟩ := List.append_of_mem (hcomp x hxk)
  have hy : y ∈ l1 := hord l1 x l2 hsplit y hxy
  have hxl1 : x ∉ l1 := by
    rw [hsplit] at hndres
    have hdisj := (List.nodup_append.mp hndres).2.2
    exact fun h2 => hdisj h2 (List.mem_cons_self _ _)
  refine ⟨⟨l1, l2, hsplit, hy, hxl1⟩, ?_⟩
  have htr : mainLoopTrace comps ow (dependency_first_dfs g)
      = l1.flatMap (mainStep comps ow)
        ++ ((x :: l2).flatMap (mainStep comps ow)) := by
    unfold mainLoopTrace
    rw [hsplit, List.flatMap_append]
  have hwmem : MainEvent.write y ∈ l1.flatMap (mainStep comps ow) :=
    List.mem_flatMap.mpr ⟨y, hy, hwr⟩
  have hsnot : MainEvent.start x ∉ l1.flatMap (mainStep comps ow) := by
    intro hmem
    obtain ⟨z, hz, hev⟩ := List.mem_flatMap.mp hmem
    have hzx : z = x := by
      have := mainStep_id comps ow z _ hev
      simpa [eventId] using this.symm
    rw [hzx] at hz
    exact hxl1 hz
  rw [htr]
  rw [firstPosOf_append_left _ hwmem, firstPosOf_append_right _ hsnot]
  have hlt := firstPosOf_lt_length hwmem
  omega

theorem C3_witness :
    Acyclic gXY ∧
    ((∃ l1 l2, dependency_first_dfs gXY = l1 ++ "x" :: l2 ∧ "y" ∈ l1 ∧
        "x" ∉ l1) ∧
      firstPosOf (mainLoopTrace compsXY false (dependency_first_dfs gXY))
          (MainEvent.write "y") <
        firstPosOf (mainLoopTrace compsXY false (dependency_first_dfs gXY))
          (MainEvent.start "x")) :=
  ⟨acyclic_gXY,
    C3_dependency_first_order gXY compsXY false "x" "y" acyclic_gXY
      (by decide) (by decide) (by decide) (by decide) (by decide)⟩

end DocAgent
